import Mathlib

/-!
Verification development for the persistent vector package
(`package vector` in the repository: a bit-partitioned trie with a tail
buffer, persistent update by path copying, and a transient builder that
mutates nodes in place when it owns them).

The embedding is heap-explicit: Go's `*node[T]` pointers become addresses
into an explicit heap (a list of nodes, allocation appends at the end), so
in-place mutation of shared nodes — the heart of this library's sharing
discipline — is modelled faithfully.  Element values are instantiated at
`Int`.  Go slices that are only ever copied before being written
(tails, the values array of a leaf while it is reachable from a persistent
vector) are modelled as immutable lists stored inside the node or vector
record, exactly mirroring the contents the Go slices carry along the
executions the theorems below talk about.

Go panics are modelled as error results (`Except PanicKind`); every Go
`panic` site maps to a distinct `PanicKind` value.
-/

namespace PVec

/-- Element type of the vectors; the generic Go code is instantiated at int. -/
abbrev Val := Int

/-- Ownership tag of a node: `none` is the shared/persistent tag (the Go
global `var persistent *id = nil`); `some k` is a transient's unique id
(a fresh `new(id)` pointer, numbered here). -/
abbrev OwnId := Option Nat

/-- `node[T]` from the source: an ownership id, a slice of child pointers
(addresses, `none` for Go's nil pointer; the empty list is Go's nil slice),
and a slice of values. -/
structure GNode where
  id     : OwnId
  nodes  : List (Option Nat)
  values : List Val
deriving DecidableEq, Repr

/-- The heap: node pointers become indices into this list. -/
abbrev Heap := List GNode

/-- Dereference a node pointer. -/
def hget (h : Heap) (a : Nat) : Option GNode := h.get? a

/-- In-place mutation of the node at address `a`. -/
def hset (h : Heap) (a : Nat) (n : GNode) : Heap := h.set a n

/-- Allocation: a fresh node gets the next address. -/
def halloc (h : Heap) (n : GNode) : Heap × Nat := (h ++ [n], h.length)

/-- Constant `nodeBits = 5` from the source. -/
def nodeBits : Nat := 5

/-- Constant `nodeWidth = 1 << nodeBits` from the source. -/
def nodeWidth : Nat := 1 <<< nodeBits

/-- Constant `nodeMask = nodeWidth - 1` from the source. -/
def nodeMask : Nat := nodeWidth - 1

/-- `indexAt(level, i)` from the source: the bits of `i` used to index a
node at the given level, `(i >> (level * nodeBits)) & nodeMask`. -/
def indexAt (level i : Nat) : Nat := (i >>> (level * nodeBits)) &&& nodeMask

/-- `isDeepEnoughToAppend(depth, count)` from the source:
`(count >> nodeBits) <= (1 << depth)`. -/
def isDeepEnoughToAppend (depth count : Nat) : Bool :=
  (count >>> nodeBits) ≤ (1 <<< depth)

/-- `newNode(id)` from the source: a branch node with a full-width slice of
nil children and no values. -/
def newNode (id : OwnId) : GNode :=
  { id := id, nodes := List.replicate nodeWidth none, values := [] }

/-- `newLeaf(id, values)` from the source: a leaf node holding values and no
child slice. -/
def newLeaf (id : OwnId) (values : List Val) : GNode :=
  { id := id, nodes := [], values := values }

/-- `cloneNode(id, original)` from the source: nil clones to nil, otherwise a
fresh node with the same children and values and the new id. -/
def cloneNodeH (h : Heap) (id : OwnId) (a : Option Nat) : Heap × Option Nat :=
  match a with
  | none => (h, none)
  | some addr =>
    match hget h addr with
    | none => (h, none)
    | some nd =>
      let p := halloc h { id := id, nodes := nd.nodes, values := nd.values }
      (p.1, some p.2)

/-- `Vector[T]` from the source: count, depth, tail and root pointer. -/
structure Vec where
  count : Nat
  depth : Nat
  tail  : List Val
  root  : Option Nat
deriving DecidableEq, Repr

/-- Every Go panic in the package, as a structured error:
out-of-range carries the offending index and the length (the two values
interpolated into the Go panic message), `invalidTransient` is the panic in
`ensureValid`, and `corrupt` stands for the nil-dereference / slice-bounds
panics that are unreachable on well-formed vectors. -/
inductive PanicKind where
  | indexOOB (index length : Int)
  | invalidTransient
  | corrupt
deriving DecidableEq, Repr

/-- `indexInTail(index, count, tail)` from the source:
`index >= count - len(tail)` (on the in-range indices where it is called). -/
def indexInTail (index count : Nat) (tail : List Val) : Bool :=
  count - tail.length ≤ index

/-- The trie walk of `findValues`: from the root, descend `depth` levels
picking child `indexAt level index`, and return the leaf's values slice.
A nil pointer or missing slot on the way is a Go panic, here `none`. -/
def walkTrie (h : Heap) : Option Nat → Nat → Nat → Option (List Val)
  | none, _, _ => none
  | some a, 0, _ => (hget h a).map GNode.values
  | some a, d+1, index =>
    match hget h a with
    | none => none
    | some nd => walkTrie h (nd.nodes.getD (indexAt (d+1) index) none) d index

/-- `findValues(count, depth, root, tail, index)` from the source: panic when
the index is out of `[0, count)`, answer from the tail when
`indexInTail`, otherwise walk the trie. -/
def findValuesH (h : Heap) (count depth : Nat) (root : Option Nat)
    (tail : List Val) (index : Int) : Except PanicKind (List Val) :=
  if index < 0 ∨ (count : Int) ≤ index then .error (.indexOOB index count)
  else if indexInTail index.toNat count tail then .ok tail
  else
    match walkTrie h root depth index.toNat with
    | some vs => .ok vs
    | none => .error .corrupt

/-- Shared body of `Vector.Nth` and `TransientVector.Nth`:
`findValues(...)[indexAt(0, index)]`. -/
def nthCore (h : Heap) (count depth : Nat) (root : Option Nat)
    (tail : List Val) (index : Int) : Except PanicKind Val :=
  (findValuesH h count depth root tail index).bind fun vs =>
    match vs.get? (indexAt 0 index.toNat) with
    | some x => .ok x
    | none => .error .corrupt

/-- `Vector.Len`. -/
def lenH (v : Vec) : Nat := v.count

/-- `Vector.Nth`. -/
def nthH (h : Heap) (v : Vec) (index : Int) : Except PanicKind Val :=
  nthCore h v.count v.depth v.root v.tail index

/-- `Vector.Peek`: `Nth(count - 1)`. -/
def peekH (h : Heap) (v : Vec) : Except PanicKind Val :=
  nthH h v ((v.count : Int) - 1)

/-- The path-copying walk of `Vector.Assoc` (the non-tail branch): clone the
node at each level, repoint the slot on the path at the clone of the child
below, and write the value into the cloned leaf.  `none` is the Go nil
dereference on a broken path (unreachable for a valid index on a
well-formed vector). -/
def assocPath : Heap → Option Nat → Nat → Nat → Val → Option (Heap × Nat)
  | h, some a, 0, index, x =>
    match hget h a with
    | some nd =>
      some (halloc h { id := none, nodes := nd.nodes, values := nd.values.set (indexAt 0 index) x })
    | none => none
  | h, some a, l+1, index, x =>
    match hget h a with
    | some nd =>
      let p := halloc h { id := none, nodes := nd.nodes, values := nd.values }
      let s := indexAt (l+1) index
      match assocPath p.1 (nd.nodes.getD s none) l index x with
      | some (h2, ca) =>
        some (hset h2 p.2 { id := none, nodes := nd.nodes.set s (some ca), values := nd.values }, p.2)
      | none => none
    | none => none
  | _, none, _, _, _ => none

/-- `Vector.Assoc(index, value)`: panic outside `[0, count)`; for a tail
index copy the tail and overwrite slot `indexAt 0 index`; otherwise
path-copy down the trie. -/
def assocH (h : Heap) (v : Vec) (index : Int) (x : Val) :
    Except PanicKind (Heap × Vec) :=
  if index < 0 ∨ (v.count : Int) ≤ index then .error (.indexOOB index v.count)
  else if indexInTail index.toNat v.count v.tail then
    .ok (h, { v with tail := v.tail.set (indexAt 0 index.toNat) x })
  else
    match assocPath h v.root v.depth index.toNat x with
    | some (h', r') => .ok (h', { v with root := some r' })
    | none => .error .corrupt

/-- The tail push-down walk of `Vector.Conj` (the indirect-pointer loop):
at each level descend to slot `indexAt level (count-1)`, allocating a fresh
branch where the slot is nil (never cloning an existing node), and place the
old tail as a fresh leaf in the final slot.  The returned pointer is the
value the enclosing slot ends up holding; the caller writes it back exactly
when it changed, which is exactly when Go wrote through the indirect
pointer (a nil slot being filled, or the leaf level). -/
def conjPlace : Heap → Option Nat → Nat → Nat → List Val → Heap × Option Nat
  | h, _, 0, _, tl =>
    let p := halloc h (newLeaf none tl)
    (p.1, some p.2)
  | h, c, l+1, index, tl =>
    let q : Heap × Nat :=
      match c with
      | some a => (h, a)
      | none => halloc h (newNode none)
    let s := indexAt (l+1) index
    let child : Option Nat :=
      match hget q.1 q.2 with
      | some nd => nd.nodes.getD s none
      | none => none
    let r := conjPlace q.1 child l index tl
    let h4 : Heap :=
      if child = r.2 then r.1
      else
        match hget r.1 q.2 with
        | some nd => hset r.1 q.2 { nd with nodes := nd.nodes.set s r.2 }
        | none => r.1
    (h4, some q.2)

/-- `Vector.Conj(val)`: append into a copied tail while it has room;
otherwise deepen the tree by one level when `isDeepEnoughToAppend` fails
(fresh root whose child 0 is the old root), push the full tail down as a
new leaf, and start a fresh one-element tail. -/
def conjH (h : Heap) (v : Vec) (x : Val) : Heap × Vec :=
  if v.tail.length < nodeWidth then
    (h, { v with count := v.count + 1, tail := v.tail ++ [x] })
  else
    let t : Heap × Nat × Option Nat :=
      if isDeepEnoughToAppend v.depth v.count then (h, v.depth, v.root)
      else
        let p := halloc h (newNode none)
        let h2 :=
          match hget p.1 p.2 with
          | some nd => hset p.1 p.2 { nd with nodes := nd.nodes.set 0 v.root }
          | none => p.1
        (h2, v.depth + 1, some p.2)
    let r := conjPlace t.1 t.2.2 t.2.1 (v.count - 1) v.tail
    (r.1, { count := v.count + 1, depth := t.2.1, tail := [x], root := r.2 })

/-- `TransientVector[T]` from the source. -/
structure TVec where
  id      : OwnId
  invalid : Bool
  count   : Nat
  depth   : Nat
  tail    : List Val
  root    : Option Nat
deriving DecidableEq, Repr

/-- The persistent-vector shape underlying a transient. -/
def TVec.toVec (t : TVec) : Vec :=
  { count := t.count, depth := t.depth, tail := t.tail, root := t.root }

/-- `Vector.Transient()`: a fresh id, a copy of the tail, and the root
shared.  The fresh `new(id)` pointer is passed in as `newId`. -/
def transientH (h : Heap) (v : Vec) (newId : Nat) : Heap × TVec :=
  (h, { id := some newId, invalid := false, count := v.count, depth := v.depth, tail := v.tail, root := v.root })

/-- `TransientVector.ensureValid` as a test: Go panics when the receiver's
`invalid` flag is set.  Note that `invalidate()` takes its receiver by
value, so its `v.invalid = true` lands on a copy and is lost; no operation
ever changes the flag of any value the caller holds, and each operation's
result is built with `invalid: false` explicitly.  The operations below
therefore check the flag and leave every existing value untouched, which is
exactly the observable Go behavior. -/
def tValid (t : TVec) : Bool := !t.invalid

/-- `TransientVector.Len`. -/
def tLenH (t : TVec) : Except PanicKind Nat :=
  if t.invalid then .error .invalidTransient else .ok t.count

/-- `TransientVector.Nth`. -/
def tNthH (h : Heap) (t : TVec) (index : Int) : Except PanicKind Val :=
  if t.invalid then .error .invalidTransient
  else nthCore h t.count t.depth t.root t.tail index

/-- `TransientVector.Peek`: `Nth(count - 1)`. -/
def tPeekH (h : Heap) (t : TVec) : Except PanicKind Val :=
  tNthH h t ((t.count : Int) - 1)

/-- `TransientVector.Persistent()`: check validity, then build a Vector with
a copied tail and `cloneNode(persistent, root)` — a one-level clone of the
root whose own tag becomes nil while its children are shared unchanged. -/
def persistentH (h : Heap) (t : TVec) : Except PanicKind (Heap × Vec) :=
  if t.invalid then .error .invalidTransient
  else
    let p := cloneNodeH h none t.root
    .ok (p.1, { count := t.count, depth := t.depth, tail := t.tail, root := p.2 })

/-- The in-place walk of `TransientVector.Assoc` below an already-owned
node: at each level, clone the child into this id when its tag differs
(writing the clone into the current node's slot), then descend; at the leaf
write the value in place. -/
def tAssocFix : Heap → OwnId → Nat → Nat → Nat → Val → Option Heap
  | h, _, a, 0, index, x =>
    match hget h a with
    | some nd => some (hset h a { nd with values := nd.values.set (indexAt 0 index) x })
    | none => none
  | h, myid, a, l+1, index, x =>
    match hget h a with
    | some nd =>
      let s := indexAt (l+1) index
      match nd.nodes.getD s none with
      | some ca =>
        match hget h ca with
        | some cnd =>
          let p : Heap × Nat :=
            if cnd.id = myid then (h, ca)
            else
              let q := halloc h { id := myid, nodes := cnd.nodes, values := cnd.values }
              (hset q.1 a { nd with nodes := nd.nodes.set s (some q.2) }, q.2)
          tAssocFix p.1 myid p.2 l index x
        | none => none
      | none => none
    | none => none

/-- `TransientVector.Assoc(index, value)`: validity check, bounds check,
in-place tail write for a tail index; otherwise take ownership of the root
(cloning it when its tag differs) and walk down with `tAssocFix`. -/
def tAssocH (h : Heap) (t : TVec) (index : Int) (x : Val) :
    Except PanicKind (Heap × TVec) :=
  if t.invalid then .error .invalidTransient
  else if index < 0 ∨ (t.count : Int) ≤ index then
    .error (.indexOOB index t.count)
  else if indexInTail index.toNat t.count t.tail then
    .ok (h, { t with invalid := false, tail := t.tail.set (indexAt 0 index.toNat) x })
  else
    match t.root with
    | some ra =>
      match hget h ra with
      | some rnd =>
        let p : Heap × Nat :=
          if rnd.id = t.id then (h, ra)
          else
            let q := halloc h { id := t.id, nodes := rnd.nodes, values := rnd.values }
            (q.1, q.2)
        match tAssocFix p.1 t.id p.2 t.depth index.toNat x with
        | some h' => .ok (h', { t with invalid := false, root := some p.2 })
        | none => .error .corrupt
      | none => .error .corrupt
    | none => .error .corrupt

/-- The tail push-down walk of `TransientVector.Conj`: like `conjPlace`, but
a node whose tag differs from this transient's id is cloned (and the clone
written into the enclosing slot) before descending, and fresh nodes carry
the transient's id. -/
def tConjPlace : Heap → OwnId → Option Nat → Nat → Nat → List Val → Heap × Option Nat
  | h, myid, _, 0, _, tl =>
    let p := halloc h (newLeaf myid tl)
    (p.1, some p.2)
  | h, myid, c, l+1, index, tl =>
    let q : Heap × Nat :=
      match c with
      | some a => (h, a)
      | none => halloc h (newNode myid)
    let q2 : Heap × Nat :=
      match hget q.1 q.2 with
      | some nd =>
        if nd.id = myid then (q.1, q.2)
        else
          let p := halloc q.1 { id := myid, nodes := nd.nodes, values := nd.values }
          (p.1, p.2)
      | none => (q.1, q.2)
    let s := indexAt (l+1) index
    let child : Option Nat :=
      match hget q2.1 q2.2 with
      | some nd => nd.nodes.getD s none
      | none => none
    let r := tConjPlace q2.1 myid child l index tl
    let h4 : Heap :=
      if child = r.2 then r.1
      else
        match hget r.1 q2.2 with
        | some nd => hset r.1 q2.2 { nd with nodes := nd.nodes.set s r.2 }
        | none => r.1
    (h4, some q2.2)

/-- `TransientVector.Conj(val)`: validity check; append in place while the
tail has room; otherwise deepen when needed (fresh root owned by this id,
child 0 the old root), push the tail down with `tConjPlace`, and start a
fresh one-element tail. -/
def tConjH (h : Heap) (t : TVec) (x : Val) : Except PanicKind (Heap × TVec) :=
  if t.invalid then .error .invalidTransient
  else if t.tail.length < nodeWidth then
    .ok (h, { t with invalid := false, count := t.count + 1, tail := t.tail ++ [x] })
  else
    let d : Heap × Nat × Option Nat :=
      if isDeepEnoughToAppend t.depth t.count then (h, t.depth, t.root)
      else
        let p := halloc h (newNode t.id)
        let h2 :=
          match hget p.1 p.2 with
          | some nd => hset p.1 p.2 { nd with nodes := nd.nodes.set 0 t.root }
          | none => p.1
        (h2, t.depth + 1, some p.2)
    let r := tConjPlace d.1 t.id d.2.2 d.2.1 (t.count - 1) t.tail
    .ok (r.1, { t with invalid := false, count := t.count + 1, depth := d.2.1, tail := [x], root := r.2 })

/-- The loop body of `New`: fold the transient `Conj` over the values.  Each
iteration feeds the freshly returned transient (always valid) back in, so
the error branch is unreachable in `New`. -/
def newLoop : Heap → TVec → List Val → Heap × TVec
  | h, t, [] => (h, t)
  | h, t, x :: xs =>
    match tConjH h t x with
    | .ok (h', t') => newLoop h' t' xs
    | .error _ => (h, t)

/-- The empty persistent vector `Vector[T]{}` (the Go zero value). -/
def emptyVec : Vec := { count := 0, depth := 0, tail := [], root := none }

/-- `New(vals...)`: thaw the zero vector (the fresh id is numbered 0 in the
empty world `New` runs in), `Conj` every value, freeze. -/
def NewH (vals : List Val) : Except PanicKind (Heap × Vec) :=
  let p := transientH [] emptyVec 0
  let q := newLoop p.1 p.2 vals
  persistentH q.1 q.2

/-- `New` never hits an error branch; this projection extracts its result
(the error fallback is dead code, see `NewH_ok`). -/
def runNew (vals : List Val) : Heap × Vec :=
  match NewH vals with
  | .ok p => p
  | .error _ => ([], emptyVec)

/-- Repeated persistent `Conj` starting from a given heap and vector. -/
def conjFold : Heap × Vec → List Val → Heap × Vec
  | p, [] => p
  | p, x :: xs => conjFold (conjH p.1 p.2 x) xs

/-! ### Specification layer: well-formedness, regions, invariants -/

/-- The full trie read: the leaf values slice found by the walk, indexed at
`indexAt 0 j` (this composition is exactly `findValues` followed by the
indexing in `Nth`, restricted to the trie branch). -/
def readTrie (h : Heap) (root : Option Nat) (depth j : Nat) : Option Val :=
  match walkTrie h root depth j with
  | some vs => vs.get? (indexAt 0 j)
  | none => none

/-- Structural well-formedness of a subtree hanging at a pointer, at a given
depth: leaves (depth 0) have no child slice and a full-width values slice;
branches have a full-width child slice, no values, and well-formed
children. -/
def nodeWF (h : Heap) : Nat → Option Nat → Bool
  | _, none => true
  | 0, some a =>
    match hget h a with
    | none => false
    | some nd => nd.nodes.isEmpty && (nd.values.length == nodeWidth)
  | d+1, some a =>
    match hget h a with
    | none => false
    | some nd =>
      nd.values.isEmpty && (nd.nodes.length == nodeWidth) &&
        nd.nodes.all (fun c => nodeWF h d c)

/-- The addresses occupied by a subtree (its region), listed with
multiplicity; `Nodup` of this list says every node sits at one position of
the subtree only. -/
def addrList (h : Heap) : Nat → Option Nat → List Nat
  | _, none => []
  | 0, some a => [a]
  | d+1, some a =>
    match hget h a with
    | none => [a]
    | some nd => a :: nd.nodes.flatMap (fun c => addrList h d c)

/-- Two indices follow the same branch slots through levels `level` down to
`1` (the walk takes identical turns above the leaf). -/
def pathEqB : Nat → Nat → Nat → Bool
  | 0, _, _ => true
  | l+1, j, idx => (indexAt (l+1) j == indexAt (l+1) idx) && pathEqB l j idx

/-- Every node of the subtree carries the shared (nil) ownership tag. -/
def allSharedB (h : Heap) : Nat → Option Nat → Bool
  | _, none => true
  | 0, some a =>
    match hget h a with
    | none => true
    | some nd => nd.id == none
  | d+1, some a =>
    match hget h a with
    | none => true
    | some nd => (nd.id == none) && nd.nodes.all (fun c => allSharedB h d c)

/-- Number of elements addressable through the trie: `count - len(tail)`. -/
def trieSize (v : Vec) : Nat := v.count - v.tail.length

/-- Representation invariant relating a vector in a heap to the list of its
elements: the counting and tail facts the package maintains, structural
well-formedness and positional uniqueness of the trie, and correctness of
every trie read below `count - len(tail)`. -/
structure VecRep (h : Heap) (v : Vec) (l : List Val) : Prop where
  count_eq : v.count = l.length
  tail_le  : v.tail.length ≤ v.count
  tail_cap : v.tail.length ≤ nodeWidth
  tail_eq  : v.tail = l.drop (trieSize v)
  size_mod : trieSize v % nodeWidth = 0
  size_le  : trieSize v ≤ nodeWidth * 2 ^ v.depth
  tail_nil : v.tail = [] → v.count = 0
  wf       : nodeWF h v.depth v.root = true
  nodup    : (addrList h v.depth v.root).Nodup
  reads    : ∀ j, j < trieSize v → readTrie h v.root v.depth j = l.get? j

/-- The arithmetic representation invariant of claim C9, on the vector value
alone. -/
structure VecInv (v : Vec) : Prop where
  tail_le  : v.tail.length ≤ v.count
  tail_cap : v.tail.length ≤ nodeWidth
  size_mod : trieSize v % nodeWidth = 0
  size_le  : trieSize v ≤ nodeWidth * 2 ^ v.depth
  tail_nil : v.tail = [] → v.count = 0

/-- A state reachable through the public interface: either a persistent
vector or a transient, paired with its heap. -/
inductive RState where
  | pv (h : Heap) (v : Vec)
  | tv (h : Heap) (t : TVec)

/-- Closure of the public operations starting from `New`: the vectors (and
intermediate transients) a client of the package can hold. -/
inductive ReachS : RState → Prop where
  | new (vals : List Val) (h : Heap) (v : Vec) :
      NewH vals = .ok (h, v) → ReachS (.pv h v)
  | conj (h : Heap) (v : Vec) (x : Val) :
      ReachS (.pv h v) → ReachS (.pv (conjH h v x).1 (conjH h v x).2)
  | assoc (h : Heap) (v : Vec) (i : Int) (x : Val) (h' : Heap) (v' : Vec) :
      ReachS (.pv h v) → assocH h v i x = .ok (h', v') → ReachS (.pv h' v')
  | thaw (h : Heap) (v : Vec) (n : Nat) :
      ReachS (.pv h v) → ReachS (.tv (transientH h v n).1 (transientH h v n).2)
  | tconj (h : Heap) (t : TVec) (x : Val) (h' : Heap) (t' : TVec) :
      ReachS (.tv h t) → tConjH h t x = .ok (h', t') → ReachS (.tv h' t')
  | tassoc (h : Heap) (t : TVec) (i : Int) (x : Val) (h' : Heap) (t' : TVec) :
      ReachS (.tv h t) → tAssocH h t i x = .ok (h', t') → ReachS (.tv h' t')
  | persist (h : Heap) (t : TVec) (h' : Heap) (v : Vec) :
      ReachS (.tv h t) → persistentH h t = .ok (h', v) → ReachS (.pv h' v)

/-- A vector reachable through the public interface, with its heap. -/
def Reach (h : Heap) (v : Vec) : Prop := ReachS (.pv h v)

/-- Is the result an index-out-of-range panic? -/
def isOOB {α : Type} : Except PanicKind α → Bool
  | .error (.indexOOB _ _) => true
  | _ => false

/-! ### Concrete programs used by the counterexamples -/

/-- Values 0..95: a 96-element vector has a depth-1 trie holding two full
leaves plus a full tail. -/
def c1vals : List Val := (List.range 96).map Int.ofNat

/-- `v1 := New(0, 1, ..., 95)`. -/
def c1st1 : Heap × Vec := runNew c1vals

/-- `v2 := v1.Conj(100)` — published before anything else happens. -/
def c1st2 : Heap × Vec := conjH c1st1.1 c1st1.2 100

/-- `v3 := v1.Assoc(70, 999)` — a tail update on `v1`. -/
def c1st3 : Heap × Vec :=
  match assocH c1st2.1 c1st1.2 70 999 with
  | .ok p => p
  | .error _ => ([], emptyVec)

/-- `v4 := v3.Conj(101)` — pushes `v3`'s tail down the same trie path that
`v2`'s push used, overwriting the shared leaf slot in place. -/
def c1st4 : Heap × Vec := conjH c1st3.1 c1st3.2 101

/-- Values 0..39: a 40-element vector has a one-leaf trie plus an 8-element
tail. -/
def c2vals40 : List Val := (List.range 40).map Int.ofNat

/-- The zero transient `Vector[int]{}.Transient()` (fresh id 0). -/
def c4t0 : TVec := (transientH [] emptyVec 0).2

/-- A transient holding 0..64 (65 elements: depth 1, a trie of two leaves
owned by id 0, plus a one-element tail). -/
def c7t65 : Heap × TVec :=
  newLoop [] (transientH [] emptyVec 0).2 ((List.range 65).map Int.ofNat)

/-- The result of freezing `c7t65`. -/
def c7p65 : Heap × Vec :=
  match persistentH c7t65.1 c7t65.2 with
  | .ok p => p
  | .error _ => ([], emptyVec)

/-! ### Basic heap lemmas -/

theorem hget_lt {h : Heap} {a : Nat} {nd : GNode} (hg : hget h a = some nd) :
    a < h.length := by
  by_contra hc
  rw [hget, List.get?_eq_none.mpr (Nat.le_of_not_lt hc)] at hg
  cases hg

theorem hget_append {h h2 : Heap} {a : Nat} (ha : a < h.length) :
    hget (h ++ h2) a = hget h a := by
  simp only [hget, List.get?_append ha]

theorem hget_append_self (h : Heap) (n : GNode) :
    hget (h ++ [n]) h.length = some n := by
  simp only [hget, List.get?_concat_length]

theorem hset_length (h : Heap) (a : Nat) (n : GNode) :
    (hset h a n).length = h.length := by
  simp [hset]

theorem hget_hset_self {h : Heap} {a : Nat} (n : GNode) (ha : a < h.length) :
    hget (hset h a n) a = some n := by
  simp only [hget, hset, List.get?_set_eq_of_lt _ ha]

theorem hget_hset_ne {h : Heap} {a b : Nat} (n : GNode) (hab : a ≠ b) :
    hget (hset h a n) b = hget h b := by
  simp only [hget, hset, List.get?_set_ne _ _ hab]

/-! ### Addressing arithmetic -/

theorem nodeWidth_eq : nodeWidth = 32 := rfl

theorem indexAt_eq (l i : Nat) : indexAt l i = i / 32 ^ l % 32 := by
  have hm : i >>> (l * nodeBits) &&& 31 = i >>> (l * nodeBits) % 32 := by
    have h5 := Nat.and_pow_two_sub_one_eq_mod (i >>> (l * nodeBits)) 5
    norm_num at h5
    exact h5
  have hs : i >>> (l * nodeBits) = i / 32 ^ l := by
    rw [Nat.shiftRight_eq_div_pow]
    congr 1
    rw [nodeBits, mul_comm, pow_mul]
    norm_num
  have hmask : nodeMask = 31 := rfl
  rw [indexAt, hmask, hm, hs]

theorem indexAt_lt (l i : Nat) : indexAt l i < nodeWidth := by
  rw [indexAt_eq, nodeWidth_eq]
  exact Nat.mod_lt _ (by norm_num)

theorem indexAt_zero (i : Nat) : indexAt 0 i = i % 32 := by
  rw [indexAt_eq]; norm_num

theorem isDeepEnoughToAppend_iff (d c : Nat) :
    isDeepEnoughToAppend d c = true ↔ c / 32 ≤ 2 ^ d := by
  have hs : c >>> nodeBits = c / 32 := by
    simpa [nodeBits] using Nat.shiftRight_eq_div_pow c 5
  have hl : (1 : Nat) <<< d = 2 ^ d := by simp [Nat.shiftLeft_eq]
  simp [isDeepEnoughToAppend, hs, hl]

/-- `pathEqB` is equality of the digit string above the leaf level:
levels 1..l of the two indices agree exactly when the shifted indices agree
modulo `32 ^ l`. -/
theorem pathEqB_iff_mod (l j idx : Nat) :
    pathEqB l j idx = true ↔ (j >>> 5) % 32 ^ l = (idx >>> 5) % 32 ^ l := by
  induction l with
  | zero => simp [pathEqB, pow_zero, Nat.mod_one]
  | succ n ih =>
    have hdig : ∀ m : Nat, indexAt (n+1) m = (m >>> 5) / 32 ^ n % 32 := by
      intro m
      rw [indexAt_eq]
      have h5 : m >>> 5 = m / 32 := by
        have := Nat.shiftRight_eq_div_pow m 5
        norm_num at this
        exact this
      rw [h5, Nat.div_div_eq_div_mul]
      congr 2
      rw [pow_succ']
    constructor
    · intro hp
      simp only [pathEqB, Bool.and_eq_true, beq_iff_eq] at hp
      obtain ⟨h1, h2⟩ := hp
      rw [ih] at h2
      rw [hdig, hdig] at h1
      calc (j >>> 5) % 32 ^ (n+1) = (j >>> 5) % 32 ^ n + 32 ^ n * ((j >>> 5) / 32 ^ n % 32) := by
            rw [pow_succ, Nat.mod_mul]
        _ = (idx >>> 5) % 32 ^ n + 32 ^ n * ((idx >>> 5) / 32 ^ n % 32) := by rw [h1, h2]
        _ = (idx >>> 5) % 32 ^ (n+1) := by rw [pow_succ, Nat.mod_mul]
    · intro hp
      have h1 : (j >>> 5) % 32 ^ n = (idx >>> 5) % 32 ^ n := by
        have hd : (32 : Nat) ^ n ∣ 32 ^ (n + 1) := pow_dvd_pow _ (Nat.le_succ n)
        calc (j >>> 5) % 32 ^ n = (j >>> 5) % 32 ^ (n+1) % 32 ^ n := by
              rw [Nat.mod_mod_of_dvd _ hd]
          _ = (idx >>> 5) % 32 ^ (n+1) % 32 ^ n := by rw [hp]
          _ = (idx >>> 5) % 32 ^ n := by rw [Nat.mod_mod_of_dvd _ hd]
      have h2 : (j >>> 5) / 32 ^ n % 32 = (idx >>> 5) / 32 ^ n % 32 := by
        have ha : (j >>> 5) % 32 ^ (n+1) / 32 ^ n = (j >>> 5) / 32 ^ n % 32 := by
          rw [pow_succ, Nat.mod_mul_right_div_self]
        have hb : (idx >>> 5) % 32 ^ (n+1) / 32 ^ n = (idx >>> 5) / 32 ^ n % 32 := by
          rw [pow_succ, Nat.mod_mul_right_div_self]
        rw [← ha, ← hb, hp]
      simp only [pathEqB, Bool.and_eq_true, beq_iff_eq]
      exact ⟨by rw [hdig, hdig, h2], ih.mpr h1⟩

/-! ### List helpers -/

theorem mem_getD {l : List (Option Nat)} {s : Nat} (hs : s < l.length) :
    l.getD s none ∈ l := by
  rw [List.getD_eq_getElem l none hs]
  exact List.getElem_mem hs

theorem getD_set_self {l : List (Option Nat)} {s : Nat} (a : Option Nat)
    (hs : s < l.length) : (l.set s a).getD s none = a := by
  rw [List.getD_eq_getElem _ none (by simpa using hs)]
  simp [List.getElem_set, hs]

theorem getD_set_ne (l : List (Option Nat)) {s s' : Nat} (a : Option Nat)
    (hne : s ≠ s') : (l.set s a).getD s' none = l.getD s' none := by
  simp [List.getD, List.getElem?_set_ne hne]

theorem flatMap_congr {α β : Type} {l : List α} {f g : α → List β}
    (hfg : ∀ x ∈ l, f x = g x) : l.flatMap f = l.flatMap g := by
  induction l with
  | nil => rfl
  | cons c cs ih =>
    simp only [List.flatMap_cons]
    rw [hfg c (List.mem_cons_self c cs), ih (fun x hx => hfg x (List.mem_cons_of_mem c hx))]

theorem mem_flatMap_getD {l : List (Option Nat)} {f : Option Nat → List Nat}
    {s : Nat} {x : Nat} (hx : x ∈ f (l.getD s none)) :
    x ∈ l.flatMap f ∨ l.getD s none = none := by
  by_cases hs : s < l.length
  · exact .inl (List.mem_flatMap.mpr ⟨l.getD s none, mem_getD hs, hx⟩)
  · right
    rw [List.getD_eq_default]
    omega

theorem nodup_of_mem_flatMap {α : Type} {l : List α} {f : α → List Nat} {x : α}
    (hx : x ∈ l) (hnd : (l.flatMap f).Nodup) : (f x).Nodup := by
  obtain ⟨l1, l2, rfl⟩ := List.append_of_mem hx
  rw [List.flatMap_append, List.flatMap_cons] at hnd
  exact ((hnd.of_append_right).of_append_left)

theorem nodup_flatMap_getD {l : List (Option Nat)} {f : Option Nat → List Nat}
    (hnd : (l.flatMap f).Nodup) (hnil : f none = []) (s : Nat) :
    (f (l.getD s none)).Nodup := by
  by_cases hs : s < l.length
  · exact nodup_of_mem_flatMap (mem_getD hs) hnd
  · rw [List.getD_eq_default _ _ (Nat.le_of_not_lt hs), hnil]
    exact List.nodup_nil

/-- Children of a node with a duplicate-free flattened region occupy
pairwise disjoint regions (distinct slots never share an address). -/
theorem flatMap_nodup_disjoint {f : Option Nat → List Nat} (hnil : f none = []) :
    ∀ l : List (Option Nat), (l.flatMap f).Nodup →
      ∀ s s' : Nat, s ≠ s' → ∀ x, x ∈ f (l.getD s none) → x ∈ f (l.getD s' none) → False := by
  intro l
  induction l with
  | nil =>
    intro _ s s' _ x hx _
    rw [List.getD_nil, hnil] at hx
    cases hx
  | cons c cs ih =>
    intro hnd s s' hne x hx hx'
    rw [List.flatMap_cons] at hnd
    match s, s' with
    | 0, 0 => exact hne rfl
    | 0, t+1 =>
      rw [List.getD_cons_zero] at hx
      rw [List.getD_cons_succ] at hx'
      rcases mem_flatMap_getD hx' with hmem | hzero
      · exact (List.disjoint_of_nodup_append hnd) hx hmem
      · rw [hzero, hnil] at hx'; cases hx'
    | t+1, 0 =>
      rw [List.getD_cons_zero] at hx'
      rw [List.getD_cons_succ] at hx
      rcases mem_flatMap_getD hx with hmem | hzero
      · exact (List.disjoint_of_nodup_append hnd) hx' hmem
      · rw [hzero, hnil] at hx; cases hx
    | t+1, t'+1 =>
      rw [List.getD_cons_succ] at hx hx'
      exact ih hnd.of_append_right t t' (by omega) x hx hx'

/-! ### Region lemmas: bounds, congruence, framing -/

theorem walkTrie_none (h : Heap) (d j : Nat) : walkTrie h none d j = none := by
  cases d <;> rfl

theorem addrList_none (h : Heap) (d : Nat) : addrList h d none = [] := by
  cases d <;> rfl

theorem nodeWF_none (h : Heap) (d : Nat) : nodeWF h d none = true := by
  cases d <;> rfl

theorem addrList_lt {h : Heap} :
    ∀ {d : Nat} {c : Option Nat}, nodeWF h d c = true →
      ∀ a ∈ addrList h d c, a < h.length := by
  intro d
  induction d with
  | zero =>
    intro c hwf a ha
    match c with
    | none => cases ha
    | some b =>
      cases hg : hget h b with
      | none => simp [nodeWF, hg] at hwf
      | some nd =>
        simp only [addrList, List.mem_singleton] at ha
        subst ha
        exact hget_lt hg
  | succ n ih =>
    intro c hwf a ha
    match c with
    | none => cases ha
    | some b =>
      cases hg : hget h b with
      | none => simp [nodeWF, hg] at hwf
      | some nd =>
        simp only [nodeWF, hg, Bool.and_eq_true, List.all_eq_true] at hwf
        simp only [addrList, hg, List.mem_cons] at ha
        rcases ha with rfl | ha
        · exact hget_lt hg
        · obtain ⟨c', hc', hx⟩ := List.mem_flatMap.mp ha
          exact ih (hwf.2 c' hc') a hx

/-- Reads, regions and well-formedness only depend on the heap's contents on
the subtree's region. -/
theorem region_congr {h h' : Heap} :
    ∀ {d : Nat} {c : Option Nat}, nodeWF h d c = true →
      (∀ a ∈ addrList h d c, hget h' a = hget h a) →
      addrList h' d c = addrList h d c ∧ nodeWF h' d c = true ∧
        ∀ j, walkTrie h' c d j = walkTrie h c d j := by
  intro d
  induction d with
  | zero =>
    intro c hwf agree
    match c with
    | none => exact ⟨rfl, rfl, fun _ => rfl⟩
    | some b =>
      cases hg : hget h b with
      | none => simp [nodeWF, hg] at hwf
      | some nd =>
        have hb : hget h' b = some nd := by
          rw [agree b (by simp [addrList]), hg]
        refine ⟨rfl, ?_, ?_⟩
        · simp only [nodeWF, hg, hb] at *
          exact hwf
        · intro j
          simp [walkTrie, hg, hb]
  | succ n ih =>
    intro c hwf agree
    match c with
    | none => exact ⟨rfl, rfl, fun _ => rfl⟩
    | some b =>
      cases hg : hget h b with
      | none => simp [nodeWF, hg] at hwf
      | some nd =>
        have hb : hget h' b = some nd := by
          rw [agree b (by simp [addrList, hg]), hg]
        simp only [nodeWF, hg, Bool.and_eq_true, List.all_eq_true] at hwf
        have hsub : ∀ c' ∈ nd.nodes, ∀ a ∈ addrList h n c', hget h' a = hget h a := by
          intro c' hc' a ha
          exact agree a (by
            simp only [addrList, hg, List.mem_cons]
            exact .inr (List.mem_flatMap.mpr ⟨c', hc', ha⟩))
        have hchild : ∀ c' ∈ nd.nodes,
            addrList h' n c' = addrList h n c' ∧ nodeWF h' n c' = true ∧
              ∀ j, walkTrie h' c' n j = walkTrie h c' n j :=
          fun c' hc' => ih (hwf.2 c' hc') (hsub c' hc')
        refine ⟨?_, ?_, ?_⟩
        · simp only [addrList, hg, hb]
          rw [flatMap_congr (fun c' hc' => (hchild c' hc').1)]
        · simp only [nodeWF, hb, Bool.and_eq_true, List.all_eq_true]
          exact ⟨hwf.1, fun c' hc' => (hchild c' hc').2.1⟩
        · intro j
          simp only [walkTrie, hg, hb]
          set s := indexAt (n+1) j with hs
          by_cases hlt : s < nd.nodes.length
          · exact (hchild _ (mem_getD hlt)).2.2 j
          · have hlen : nd.nodes.length ≤ s := Nat.le_of_not_lt hlt
            rw [List.getD_eq_default _ _ hlen, walkTrie_none, walkTrie_none]

/-- A successful walk on a well-formed subtree returns a full-width leaf. -/
theorem walk_length {h : Heap} :
    ∀ {d : Nat} {c : Option Nat} {j : Nat} {vs : List Val},
      nodeWF h d c = true → walkTrie h c d j = some vs →
      vs.length = nodeWidth := by
  intro d
  induction d with
  | zero =>
    intro c j vs hwf hw
    match c with
    | none => cases hw
    | some b =>
      cases hg : hget h b with
      | none => simp [walkTrie, hg] at hw
      | some nd =>
        simp only [walkTrie, hg, Option.map_some'] at hw
        cases hw
        simp only [nodeWF, hg, Bool.and_eq_true, beq_iff_eq] at hwf
        exact hwf.2
  | succ n ih =>
    intro c j vs hwf hw
    match c with
    | none => cases hw
    | some b =>
      cases hg : hget h b with
      | none => simp [walkTrie, hg] at hw
      | some nd =>
        simp only [walkTrie, hg] at hw
        simp only [nodeWF, hg, Bool.and_eq_true, List.all_eq_true] at hwf
        set s := indexAt (n+1) j with hs
        by_cases hlt : s < nd.nodes.length
        · exact ih (hwf.2 _ (mem_getD hlt)) hw
        · have hlen : nd.nodes.length ≤ s := Nat.le_of_not_lt hlt
          rw [List.getD_eq_default _ _ hlen, walkTrie_none] at hw
          cases hw

end PVec

namespace PVec

/-! ### Claim C6: the append-depth test versus the capacity condition -/

/-- C6 counterexample: at depth 1 and count 96 the trie can still address 96
elements without a new root level by the spec's capacity reading
(96 ≤ W^(depth+1) = 1024), yet `isDeepEnoughToAppend 1 96` returns false —
the implemented test `(count >> bits) <= (1 << depth)` is not equivalent to
the capacity condition. -/
theorem c6_counterexample :
    isDeepEnoughToAppend 1 96 = false ∧ 96 ≤ nodeWidth ^ (1 + 1) := by
  exact ⟨by decide, by decide⟩

/-- C6 (amended): `isDeepEnoughToAppend depth count` returns true exactly
when `(count >> bits) ≤ (1 << depth)`, i.e. `count / 32 ≤ 2 ^ depth`.  On
the counts at which `Conj` consults it (multiples of W, the tail being
full) this test is sufficient for the capacity bound
`count ≤ W ^ (depth + 1)`, but strictly stronger than it: the tree is
deepened well before the capacity is reached. -/
theorem c6_isDeepEnoughToAppend_amended :
    (∀ d c, isDeepEnoughToAppend d c = true ↔ c / 32 ≤ 2 ^ d) ∧
    (∀ d c, nodeWidth ∣ c → isDeepEnoughToAppend d c = true →
      c ≤ nodeWidth ^ (d + 1)) := by
  refine ⟨isDeepEnoughToAppend_iff, ?_⟩
  intro d c hdvd htest
  rw [isDeepEnoughToAppend_iff] at htest
  obtain ⟨k, rfl⟩ := hdvd
  rw [nodeWidth_eq] at *
  have hk : k ≤ 2 ^ d := by
    have : 32 * k / 32 = k := by omega
    rwa [this] at htest
  have h2 : (2 : Nat) ^ d ≤ 32 ^ d := Nat.pow_le_pow_left (by norm_num) d
  calc 32 * k ≤ 32 * 32 ^ d := by
        have := le_trans hk h2
        exact Nat.mul_le_mul_left 32 this
    _ = 32 ^ (d + 1) := by ring

/-- C6 witness: the amended theorem applied at depth 1 and count 64. -/
theorem c6_amended_witness :
    (isDeepEnoughToAppend 1 64 = true ↔ 64 / 32 ≤ 2 ^ 1) ∧ 64 ≤ nodeWidth ^ (1 + 1) :=
  ⟨c6_isDeepEnoughToAppend_amended.1 1 64,
   c6_isDeepEnoughToAppend_amended.2 1 64 ⟨2, rfl⟩ (by decide)⟩

/-! ### Claim C4: builder single-use is not enforced -/

/-- C4 (code bug): `invalidate` takes its receiver by value, so the
`invalid = true` write is lost and no transient value ever has its flag
set.  A second `Conj` invoked on the very same original value `c4t0`
(already consumed by the first `Conj`) succeeds and returns a fresh
one-element transient instead of panicking with the invalid-transient
condition the type's own documentation promises. -/
theorem c4_reuse_not_rejected :
    tConjH [] c4t0 5 =
      .ok ([], { id := some 0, invalid := false, count := 1, depth := 0, tail := [5], root := none }) ∧
    tConjH [] c4t0 7 =
      .ok ([], { id := some 0, invalid := false, count := 1, depth := 0, tail := [7], root := none }) :=
  ⟨rfl, rfl⟩

/-! ### Claim C7: Persistent() clones one level, not deeply -/

/-- C7 counterexample: freeze a 65-element transient (two trie leaves owned
by id 0).  The returned vector's root (address 3) does carry the shared
tag, but the nodes reachable below it keep ownership tag `some 0`, so not
every node reachable from the returned root is shared. -/
theorem c7_counterexample :
    persistentH c7t65.1 c7t65.2 = .ok (c7p65.1, c7p65.2) ∧
    c7p65.2.root = some 3 ∧
    (hget c7p65.1 3).map GNode.id = some none ∧
    allSharedB c7p65.1 c7p65.2.depth c7p65.2.root = false :=
  ⟨rfl, rfl, rfl, by decide⟩

/-- C7 (amended): on a valid transient, `Persistent()` returns a vector with
the same count, depth and tail contents, whose root is a one-level clone:
a single fresh node whose own ownership tag is cleared to shared and whose
child and value slices equal the old root's; every other heap node —
including everything reachable below the root — is left untouched, keeping
whatever ownership tag it had. -/
theorem c7_persistent_shallow_clone (h : Heap) (t : TVec) (hv : t.invalid = false) :
    (t.root = none →
      persistentH h t = .ok (h, { count := t.count, depth := t.depth, tail := t.tail, root := none })) ∧
    (∀ a nd, t.root = some a → hget h a = some nd →
      persistentH h t =
        .ok (h ++ [{ id := none, nodes := nd.nodes, values := nd.values }],
             { count := t.count, depth := t.depth, tail := t.tail, root := some h.length }) ∧
      (∀ b, b < h.length → hget (h ++ [{ id := none, nodes := nd.nodes, values := nd.values }]) b = hget h b)) := by
  constructor
  · intro hr
    simp [persistentH, hv, cloneNodeH, hr]
  · intro a nd hr hg
    refine ⟨?_, fun b hb => hget_append hb⟩
    simp [persistentH, hv, cloneNodeH, hr, hg, halloc]

/-- C7 witness: the shallow-clone description applied to the concrete
65-element freeze (its root sits at address 1). -/
theorem c7_amended_witness :
    persistentH c7t65.1 c7t65.2 =
      .ok (c7t65.1 ++ [{ id := none, nodes := ((hget c7t65.1 1).getD (newNode none)).nodes, values := ((hget c7t65.1 1).getD (newNode none)).values }],
           { count := c7t65.2.count, depth := c7t65.2.depth, tail := c7t65.2.tail, root := some c7t65.1.length }) :=
  ((c7_persistent_shallow_clone c7t65.1 c7t65.2 (by decide)).2 1 _ (by decide) (by decide)).1

/-! ### Claim C1: a published vector is observably corrupted -/

/-- C1 (code bug): `v1 := New(0..95)`, `v2 := v1.Conj(100)` (published),
`v3 := v1.Assoc(70, 999)` (a tail update), `v4 := v3.Conj(101)`.  The
persistent `Conj` does not clone the existing nodes it walks through when
pushing a full tail into the trie, so `v4`'s push overwrites the leaf slot
`v2` reads index 70 through: `v2.Nth(70)` changes from 70 to 999 even
though every operation was a persistent `Conj`/`Assoc` on vectors derived
from `v1`. -/
theorem c1_conj_corrupts_published_vector :
    nthH c1st2.1 c1st2.2 70 = .ok 70 ∧
    assocH c1st2.1 c1st1.2 70 999 = .ok (c1st3.1, c1st3.2) ∧
    nthH c1st4.1 c1st2.2 70 = .ok 999 :=
  ⟨rfl, rfl, rfl⟩

end PVec

namespace PVec

/-! ### Claim C8: index errors are raised exactly out of range -/

/-- C8: `Nth` and `Assoc` report the index-out-of-range panic exactly when
the index is outside `[0, count)`, and the panic value carries the
offending index together with the current length; in particular the listed
boundary reads on `New()`, `New(1,2,3)` fail that way, and `Peek` on an
empty vector fails as `Nth(-1)` with the same payload shape. -/
theorem c8_index_out_of_range :
    (∀ (h : Heap) (v : Vec) (i : Int) (x : Val), (i < 0 ∨ (v.count : Int) ≤ i) →
       nthH h v i = .error (.indexOOB i v.count) ∧
       assocH h v i x = .error (.indexOOB i v.count)) ∧
    (∀ (h : Heap) (v : Vec) (i : Int) (x : Val), 0 ≤ i → i < (v.count : Int) →
       isOOB (nthH h v i) = false ∧ isOOB (assocH h v i x) = false) ∧
    nthH (runNew []).1 (runNew []).2 0 = .error (.indexOOB 0 0) ∧
    nthH (runNew [1, 2, 3]).1 (runNew [1, 2, 3]).2 3 = .error (.indexOOB 3 3) ∧
    nthH (runNew [1, 2, 3]).1 (runNew [1, 2, 3]).2 (-1) = .error (.indexOOB (-1) 3) ∧
    peekH (runNew []).1 (runNew []).2 = .error (.indexOOB (-1) 0) := by
  refine ⟨?_, ?_, rfl, rfl, rfl, rfl⟩
  · intro h v i x hoob
    constructor
    · simp [nthH, nthCore, findValuesH, hoob, Except.bind]
    · simp [assocH, hoob]
  · intro h v i x h0 hc
    have hg : ¬(i < 0 ∨ (v.count : Int) ≤ i) := by omega
    constructor
    · simp only [nthH, nthCore, findValuesH, if_neg hg]
      by_cases ht : indexInTail i.toNat v.count v.tail = true
      · simp only [if_pos ht, Except.bind]
        cases v.tail.get? (indexAt 0 i.toNat) <;> simp [isOOB]
      · simp only [if_neg ht]
        cases walkTrie h v.root v.depth i.toNat with
        | none => simp [Except.bind, isOOB]
        | some vs =>
          simp only [Except.bind]
          cases vs.get? (indexAt 0 i.toNat) <;> simp [isOOB]
    · simp only [assocH, if_neg hg]
      by_cases ht : indexInTail i.toNat v.count v.tail = true
      · simp [if_pos ht, isOOB]
      · simp only [if_neg ht]
        cases assocPath h v.root v.depth i.toNat x with
        | none => simp [isOOB]
        | some p => simp [isOOB]

/-- C8 witness: the out-of-range direction at index 5 of an empty vector,
and the in-range direction at index 0 of `New(4)`. -/
theorem c8_witness :
    nthH [] emptyVec 5 = .error (.indexOOB 5 0) ∧
    isOOB (nthH (runNew [4]).1 (runNew [4]).2 0) = false :=
  ⟨(c8_index_out_of_range.1 [] emptyVec 5 0 (by decide)).1,
   (c8_index_out_of_range.2.1 (runNew [4]).1 (runNew [4]).2 0 0 (by decide) (by decide)).1⟩

end PVec

namespace PVec

theorem mem_addrList_child {h : Heap} {a : Nat} {nd : GNode} {l s : Nat} {b : Nat}
    (hg : hget h a = some nd)
    (hb : b ∈ addrList h l (nd.nodes.getD s none)) :
    b ∈ addrList h (l+1) (some a) := by
  rcases mem_flatMap_getD (f := fun c => addrList h l c) hb with hmem | hzero
  · simp only [addrList, hg, List.mem_cons]
    exact .inr hmem
  · rw [hzero, addrList_none] at hb
    cases hb

/-- Specification of `assocPath`: on a well-formed subtree whose walk at the
index succeeds, path copying succeeds, allocates only fresh nodes (the old
heap is untouched), and the new subtree's walk at the index returns the old
leaf with the one value slot overwritten; the new subtree is well-formed
and occupies only old-subtree addresses and fresh ones. -/
theorem assocPath_spec (x : Val) :
    ∀ (level : Nat) (h : Heap) (c : Option Nat) (idx : Nat) (vs : List Val),
      nodeWF h level c = true →
      walkTrie h c level idx = some vs →
      ∃ h' a',
        assocPath h c level idx x = some (h', a') ∧
        h.length < h'.length ∧
        (∀ b, b < h.length → hget h' b = hget h b) ∧
        nodeWF h' level (some a') = true ∧
        (∀ b, b ∈ addrList h' level (some a') → b ∈ addrList h level c ∨ h.length ≤ b) ∧
        walkTrie h' (some a') level idx = some (vs.set (indexAt 0 idx) x) := by
  intro level
  induction level with
  | zero =>
    intro h c idx vs hwf hw
    match c with
    | none => rw [walkTrie_none] at hw; cases hw
    | some a =>
      cases hg : hget h a with
      | none => simp [walkTrie, hg] at hw
      | some nd =>
        simp only [walkTrie, hg, Option.map_some'] at hw
        cases hw
        refine ⟨h ++ [{ id := none, nodes := nd.nodes, values := nd.values.set (indexAt 0 idx) x }],
          h.length, ?_, ?_, ?_, ?_, ?_, ?_⟩
        · simp [assocPath, hg, halloc]
        · simp [halloc]
        · intro b hb
          exact hget_append hb
        · simp [nodeWF, hget_append_self]
          simp only [nodeWF, hg, Bool.and_eq_true, beq_iff_eq, List.isEmpty_iff] at hwf
          exact ⟨hwf.1, by simp [hwf.2]⟩
        · intro b hb
          simp only [addrList, List.mem_singleton] at hb
          subst hb
          exact .inr le_rfl
        · simp [walkTrie, hget_append_self]
  | succ l ih =>
    intro h c idx vs hwf hw
    match c with
    | none => rw [walkTrie_none] at hw; cases hw
    | some a =>
      cases hg : hget h a with
      | none => simp [walkTrie, hg] at hw
      | some nd =>
        simp only [walkTrie, hg] at hw
        simp only [nodeWF, hg, Bool.and_eq_true, List.all_eq_true, beq_iff_eq,
          List.isEmpty_iff] at hwf
        obtain ⟨⟨hval, hlen⟩, hch⟩ := hwf
        set s := indexAt (l+1) idx with hs
        have hslt : s < nd.nodes.length := by rw [hlen]; exact indexAt_lt _ _
        set child := nd.nodes.getD s none with hchild
        have hcwf : nodeWF h l child = true := hch _ (mem_getD hslt)
        -- the clone of the current node
        have hclone : hget (h ++ [(GNode.mk none nd.nodes nd.values)]) a = some nd :=
          by rw [hget_append (hget_lt hg), hg]
        have hcsub : ∀ b ∈ addrList h l child, b < h.length :=
          fun b hb => addrList_lt hcwf b hb
        have hagree1 : ∀ b ∈ addrList h l child,
            hget (h ++ [(GNode.mk none nd.nodes nd.values)]) b = hget h b :=
          fun b hb => hget_append (hcsub b hb)
        obtain ⟨hreg1, hwf1, hwalk1⟩ := region_congr hcwf hagree1
        have hw1 : walkTrie (h ++ [(GNode.mk none nd.nodes nd.values)]) child l idx = some vs := by
          rw [hwalk1]; exact hw
        obtain ⟨h2, ca, heq, hlt2, hfr2, hwf2, hreg2, hwalk2⟩ :=
          ih (h ++ [(GNode.mk none nd.nodes nd.values)]) child idx vs hwf1 hw1
        -- assemble the result
        have hlenp : (h ++ [(GNode.mk none nd.nodes nd.values)]).length = h.length + 1 := by
          simp
        have halt : h.length < h2.length := by omega
        refine ⟨hset h2 (h.length) (GNode.mk none (nd.nodes.set s (some ca)) nd.values), h.length, ?_, ?_, ?_, ?_, ?_, ?_⟩
        · simp only [assocPath, hg, halloc, ← hs, ← hchild, heq]
        · rw [hset_length]; omega
        · intro b hb
          rw [hget_hset_ne _ (by omega)]
          rw [hfr2 b (by omega), hget_append hb]
        · -- well-formedness of the updated clone
          have hgetc : hget (hset h2 h.length (GNode.mk none (nd.nodes.set s (some ca)) nd.values)) h.length =
              some (GNode.mk none (nd.nodes.set s (some ca)) nd.values) :=
            hget_hset_self _ halt
          simp only [nodeWF, hgetc, Bool.and_eq_true, List.all_eq_true, beq_iff_eq,
            List.isEmpty_iff]
          refine ⟨⟨hval, by simp [hlen]⟩, ?_⟩
          intro c' hc'
          rcases List.mem_or_eq_of_mem_set hc' with hold | rfl
          · -- a sibling child: untouched region, still well-formed
            have hcwf' : nodeWF h l c' = true := hch _ hold
            have hagree : ∀ b ∈ addrList h l c',
                hget (hset h2 h.length (GNode.mk none (nd.nodes.set s (some ca)) nd.values)) b = hget h b := by
              intro b hb
              have hblt : b < h.length := addrList_lt hcwf' b hb
              rw [hget_hset_ne _ (by omega), hfr2 b (by omega), hget_append hblt]
            exact (region_congr hcwf' hagree).2.1
          · -- the updated child: well-formed in h2, region avoids the write
            have hagree : ∀ b ∈ addrList h2 l (some ca),
                hget (hset h2 h.length (GNode.mk none (nd.nodes.set s (some ca)) nd.values)) b = hget h2 b := by
              intro b hb
              rcases hreg2 b hb with hin | hge
              · have : b < h.length := hcsub b (by rwa [hreg1] at hin)
                exact hget_hset_ne _ (by omega)
              · rw [hlenp] at hge
                exact hget_hset_ne _ (by omega)
            exact (region_congr hwf2 hagree).2.1
        · -- the new region sits inside the old region plus fresh space
          intro b hb
          have hgetc : hget (hset h2 h.length (GNode.mk none (nd.nodes.set s (some ca)) nd.values)) h.length =
              some (GNode.mk none (nd.nodes.set s (some ca)) nd.values) :=
            hget_hset_self _ halt
          simp only [addrList, hgetc, List.mem_cons] at hb
          rcases hb with rfl | hb
          · exact .inr le_rfl
          · obtain ⟨c', hc', hbc⟩ := List.mem_flatMap.mp hb
            rcases List.mem_or_eq_of_mem_set hc' with hold | rfl
            · -- region of an untouched sibling, computed in the final heap
              have hcwf' : nodeWF h l c' = true := hch _ hold
              have hagree : ∀ b' ∈ addrList h l c',
                  hget (hset h2 h.length (GNode.mk none (nd.nodes.set s (some ca)) nd.values)) b' = hget h b' := by
                intro b' hb'
                have hblt : b' < h.length := addrList_lt hcwf' b' hb'
                rw [hget_hset_ne _ (by omega), hfr2 b' (by omega), hget_append hblt]
              rw [(region_congr hcwf' hagree).1] at hbc
              left
              simp only [addrList, hg, List.mem_cons]
              exact .inr (List.mem_flatMap.mpr ⟨c', hold, hbc⟩)
            · have hagree : ∀ b' ∈ addrList h2 l (some ca),
                  hget (hset h2 h.length (GNode.mk none (nd.nodes.set s (some ca)) nd.values)) b' = hget h2 b' := by
                intro b' hb'
                rcases hreg2 b' hb' with hin | hge
                · have : b' < h.length := hcsub b' (by rwa [hreg1] at hin)
                  exact hget_hset_ne _ (by omega)
                · rw [hlenp] at hge
                  exact hget_hset_ne _ (by omega)
              rw [(region_congr hwf2 hagree).1] at hbc
              rcases hreg2 b hbc with hin | hge
              · left
                have : b ∈ addrList h l child := by rwa [hreg1] at hin
                exact mem_addrList_child hg this
              · right; omega
        · -- the walk at idx reads the updated child
          have hgetc : hget (hset h2 h.length (GNode.mk none (nd.nodes.set s (some ca)) nd.values)) h.length =
              some (GNode.mk none (nd.nodes.set s (some ca)) nd.values) :=
            hget_hset_self _ halt
          simp only [walkTrie, hgetc, ← hs]
          rw [getD_set_self _ hslt]
          have hagree : ∀ b ∈ addrList h2 l (some ca),
              hget (hset h2 h.length (GNode.mk none (nd.nodes.set s (some ca)) nd.values)) b = hget h2 b := by
            intro b hb
            rcases hreg2 b hb with hin | hge
            · have : b < h.length := hcsub b (by rwa [hreg1] at hin)
              exact hget_hset_ne _ (by omega)
            · rw [hlenp] at hge
              exact hget_hset_ne _ (by omega)
          rw [(region_congr hwf2 hagree).2.2]
          exact hwalk2

end PVec

namespace PVec

theorem VecRep.reads_walk {h : Heap} {v : Vec} {l : List Val} (rep : VecRep h v l)
    {n : Nat} (hn : n < trieSize v) :
    ∃ vs, walkTrie h v.root v.depth n = some vs ∧
      vs.get? (indexAt 0 n) = l.get? n ∧ vs.length = nodeWidth := by
  have hr := rep.reads n hn
  rw [readTrie] at hr
  cases hwk : walkTrie h v.root v.depth n with
  | none =>
    rw [hwk] at hr
    have : n < l.length := by
      have := rep.count_eq
      have := rep.tail_le
      unfold trieSize at hn
      omega
    rw [List.get?_eq_getElem?, List.getElem?_eq_getElem this] at hr
    cases hr
  | some vs =>
    rw [hwk] at hr
    exact ⟨vs, rfl, hr, walk_length rep.wf hwk⟩

/-- On a represented vector, `Nth` returns the list entry at every valid
index. -/
theorem nth_ok {h : Heap} {v : Vec} {l : List Val} (rep : VecRep h v l)
    {i : Int} (h0 : 0 ≤ i) (hc : i < (v.count : Int)) {y : Val}
    (hy : l.get? i.toNat = some y) :
    nthH h v i = .ok y := by
  have hg : ¬(i < 0 ∨ (v.count : Int) ≤ i) := by omega
  set n := i.toNat with hn
  have hnc : n < v.count := by omega
  simp only [nthH, nthCore, findValuesH, if_neg hg]
  have hm := rep.size_mod
  have htl := rep.tail_le
  have htc := rep.tail_cap
  rw [nodeWidth_eq] at htc hm
  by_cases ht : indexInTail n v.count v.tail = true
  · -- the index reads the tail
    have hmn : trieSize v ≤ n := by
      simpa [indexInTail, trieSize] using ht
    have hsub : n - trieSize v < v.tail.length := by
      unfold trieSize at *
      omega
    have hmod : indexAt 0 n = n - trieSize v := by
      rw [indexAt_zero]
      unfold trieSize at *
      omega
    have hread : v.tail.get? (indexAt 0 n) = some y := by
      rw [hmod, rep.tail_eq, List.get?_eq_getElem?, List.getElem?_drop]
      rw [List.get?_eq_getElem?] at hy
      rw [Nat.add_sub_cancel' hmn]
      exact hy
    rw [if_pos ht]
    simp only [Except.bind, hread]
  · -- the index reads the trie
    have hlt : n < trieSize v := by
      simp only [indexInTail, decide_eq_true_eq, not_le] at ht
      unfold trieSize
      omega
    obtain ⟨vs, hwk, hvs, _⟩ := rep.reads_walk hlt
    rw [hy] at hvs
    rw [if_neg ht, hwk]
    simp only [Except.bind, hvs]

/-- Reads of a represented vector are insensitive to heap growth and to
writes outside the old heap. -/
theorem nth_congr {h h' : Heap} {v : Vec} {l : List Val} (rep : VecRep h v l)
    (hfr : ∀ b, b < h.length → hget h' b = hget h b) (i : Int) :
    nthH h' v i = nthH h v i := by
  have hagree : ∀ b ∈ addrList h v.depth v.root, hget h' b = hget h b :=
    fun b hb => hfr b (addrList_lt rep.wf b hb)
  have hwalk := (region_congr rep.wf hagree).2.2
  simp only [nthH, nthCore, findValuesH, hwalk]

end PVec

namespace PVec

/-! ### Claim C2: Assoc writes the slot, keeps the length, original untouched -/

/-- C2: on a represented vector with a valid index, `Assoc` succeeds, the
new vector reads the written value at that index and has the same length,
and every read of the original vector (valid or not) is the same after the
call as before it. -/
theorem c2_assoc_persistent {h : Heap} {v : Vec} {l : List Val}
    (rep : VecRep h v l) {i : Int} (h0 : 0 ≤ i) (hc : i < (v.count : Int))
    (x : Val) :
    ∃ h' v', assocH h v i x = .ok (h', v') ∧
      nthH h' v' i = .ok x ∧
      v'.count = v.count ∧
      (∀ j : Int, nthH h' v j = nthH h v j) := by
  have hg : ¬(i < 0 ∨ (v.count : Int) ≤ i) := by omega
  set n := i.toNat with hn
  have hnc : n < v.count := by omega
  have hm := rep.size_mod
  have htl := rep.tail_le
  have htc := rep.tail_cap
  rw [nodeWidth_eq] at htc hm
  by_cases ht : indexInTail n v.count v.tail = true
  · -- tail update: the heap is untouched
    have hmn : trieSize v ≤ n := by
      simpa [indexInTail, trieSize] using ht
    have hsub : n - trieSize v < v.tail.length := by
      unfold trieSize at *
      omega
    have hmod : indexAt 0 n = n - trieSize v := by
      rw [indexAt_zero]
      unfold trieSize at *
      omega
    refine ⟨h, { v with tail := v.tail.set (indexAt 0 n) x }, ?_, ?_, rfl, fun j => rfl⟩
    · simp only [assocH, if_neg hg, if_pos ht]
    · have hg' : ¬(i < 0 ∨ ((v.count : Int)) ≤ i) := hg
      simp only [nthH, nthCore, findValuesH, if_neg hg']
      have htail' : indexInTail n v.count (v.tail.set (indexAt 0 n) x) = true := by
        simpa [indexInTail, List.length_set] using ht
      rw [if_pos htail']
      have hget : (v.tail.set (indexAt 0 n) x).get? (indexAt 0 n) = some x :=
        List.get?_set_eq_of_lt _ (by rw [hmod]; exact hsub)
      simp only [Except.bind, hget]
  · -- trie update: path copying
    have hlt : n < trieSize v := by
      simp only [indexInTail, decide_eq_true_eq, not_le] at ht
      unfold trieSize
      omega
    obtain ⟨vs, hwk, hvs, hlen⟩ := rep.reads_walk hlt
    obtain ⟨h2, ca, heq, hlt2, hfr2, hwf2, hreg2, hwalk2⟩ :=
      assocPath_spec x v.depth h v.root n vs rep.wf hwk
    refine ⟨h2, { v with root := some ca }, ?_, ?_, rfl, fun j => nth_congr rep hfr2 j⟩
    · simp only [assocH, if_neg hg, if_neg ht, heq]
    · simp only [nthH, nthCore, findValuesH, if_neg hg]
      have htail' : indexInTail n v.count v.tail = false := by
        simp only [indexInTail, decide_eq_false_iff_not, not_le]
        unfold trieSize at hlt
        omega
      rw [if_neg (by simp [htail'])]
      rw [hwalk2]
      have hset : (vs.set (indexAt 0 n) x).get? (indexAt 0 n) = some x :=
        List.get?_set_eq_of_lt _ (by rw [hlen, nodeWidth_eq]; exact (by rw [indexAt_zero]; omega))
      simp only [Except.bind, hset]

/-- C2 witness: `New(5, 7)` (all in the tail) and `New(0..39)` (index 3 in
the trie) both updated at a valid index. -/
theorem c2_witness :
    (∃ h' v', assocH (runNew [5, 7]).1 (runNew [5, 7]).2 1 9 = .ok (h', v') ∧
      nthH h' v' 1 = .ok 9 ∧ v'.count = (runNew [5, 7]).2.count ∧
      (∀ j : Int, nthH h' (runNew [5, 7]).2 j = nthH (runNew [5, 7]).1 (runNew [5, 7]).2 j)) ∧
    (∃ h' v', assocH (runNew c2vals40).1 (runNew c2vals40).2 3 111 = .ok (h', v') ∧
      nthH h' v' 3 = .ok 111 ∧ v'.count = (runNew c2vals40).2.count ∧
      (∀ j : Int, nthH h' (runNew c2vals40).2 j = nthH (runNew c2vals40).1 (runNew c2vals40).2 j)) := by
  constructor
  · exact c2_assoc_persistent (l := [5, 7])
      ⟨by decide, by decide, by decide, by decide, by decide, by decide, by decide, by decide, by decide, by decide⟩
      (by decide) (by decide) 9
  · exact c2_assoc_persistent (l := c2vals40)
      ⟨by decide, by decide, by decide, by decide, by decide, by decide, by decide, by decide, by decide, by decide⟩
      (by decide) (by decide) 111

end PVec

namespace PVec

theorem getD_replicate_none (n s : Nat) :
    (List.replicate n (none : Option Nat)).getD s none = none := by
  by_cases hs : s < n
  · rw [List.getD_eq_getElem _ none (by simpa using hs)]
    exact List.getElem_replicate _ _
  · exact List.getD_eq_default _ _ (by simpa using Nat.le_of_not_lt hs)

theorem pathEqB_succ (l j idx : Nat) :
    pathEqB (l+1) j idx = true ↔
      indexAt (l+1) j = indexAt (l+1) idx ∧ pathEqB l j idx = true := by
  simp [pathEqB]

/-- Two distinct child values of one node have disjoint regions when the
flattened child region list is duplicate-free. -/
theorem region_disjoint_of_mem {f : Option Nat → List Nat}
    (hnil : f none = []) {l : List (Option Nat)}
    (hnd : (l.flatMap f).Nodup) {c1 c2 : Option Nat}
    (h1 : c1 ∈ l) (h2 : c2 ∈ l) (hne : c1 ≠ c2) :
    ∀ b, b ∈ f c1 → b ∈ f c2 → False := by
  intro b hb1 hb2
  obtain ⟨⟨i, hi⟩, hgi⟩ := List.get_of_mem h1
  obtain ⟨⟨j, hj⟩, hgj⟩ := List.get_of_mem h2
  have hgi' : l.getD i none = c1 := by
    rw [List.getD_eq_getElem _ none hi]
    simpa using hgi
  have hgj' : l.getD j none = c2 := by
    rw [List.getD_eq_getElem _ none hj]
    simpa using hgj
  have hij : i ≠ j := by
    intro hEq
    apply hne
    rw [← hgi', ← hgj', hEq]
  exact flatMap_nodup_disjoint hnil l hnd i j hij b
    (by rwa [hgi']) (by rwa [hgj'])

/-- Replacing one slot's child with a fresh-region child keeps the flattened
region list duplicate-free, and the new flattened list only holds old
region members and members of the new child's region. -/
theorem flatMap_set_nodup {f g : Option Nat → List Nat} (newReg : List Nat) :
    ∀ (l : List (Option Nat)) (s : Nat) (cnew : Option Nat),
      (l.flatMap f).Nodup →
      cnew ∉ l →
      newReg.Nodup →
      (∀ b ∈ newReg, b ∈ f (l.getD s none) ∨ b ∉ l.flatMap f) →
      g cnew = newReg →
      (∀ c ∈ l, c ≠ cnew → g c = f c) →
      s < l.length →
      ((l.set s cnew).flatMap g).Nodup ∧
        (∀ b ∈ (l.set s cnew).flatMap g, b ∈ l.flatMap f ∨ b ∈ newReg) := by
  intro l
  induction l with
  | nil =>
    intro s cnew _ _ _ _ _ _ hs
    cases hs
  | cons c cs ih =>
    intro s cnew hnd hmem hnr hdisj hg1 hg2 hs
    have hgcs : ∀ c' ∈ cs, c' ≠ cnew → g c' = f c' :=
      fun c' hc' => hg2 c' (List.mem_cons_of_mem c hc')
    rw [List.flatMap_cons] at hnd
    match s with
    | 0 =>
      have hcseq : (cs.flatMap g) = cs.flatMap f :=
        flatMap_congr (fun c' hc' => hgcs c' hc' (fun hEq => hmem (hEq ▸ List.mem_cons_of_mem c hc')))
      rw [List.set_cons_zero, List.flatMap_cons, hg1, hcseq]
      have hq : ∀ b ∈ newReg, b ∉ cs.flatMap f := by
        intro b hb hbc
        rcases hdisj b hb with hin | hout
        · rw [List.getD_cons_zero] at hin
          exact (List.disjoint_of_nodup_append hnd) hin hbc
        · exact hout (List.mem_append_right _ hbc)
      constructor
      · rw [List.nodup_append]
        exact ⟨hnr, hnd.of_append_right, fun b hb => hq b hb⟩
      · intro b hb
        rcases List.mem_append.mp hb with hb | hb
        · exact .inr hb
        · exact .inl (List.mem_append_right _ hb)
    | t+1 =>
      have hgc : g c = f c :=
        hg2 c (List.mem_cons_self c cs) (fun hEq => hmem (hEq ▸ List.mem_cons_self c cs))
      have hdisj' : ∀ b ∈ newReg, b ∈ f (cs.getD t none) ∨ b ∉ cs.flatMap f := by
        intro b hb
        rcases hdisj b hb with hin | hout
        · rw [List.getD_cons_succ] at hin
          exact .inl hin
        · exact .inr (fun hbc => hout (List.mem_append_right _ hbc))
      obtain ⟨ihnd, ihsub⟩ := ih t cnew hnd.of_append_right
        (fun hEq => hmem (List.mem_cons_of_mem c hEq)) hnr hdisj' hg1 hgcs
        (by simpa using hs)
      rw [List.set_cons_succ, List.flatMap_cons, hgc]
      constructor
      · rw [List.nodup_append]
        refine ⟨hnd.of_append_left, ihnd, ?_⟩
        intro b hb hbs
        rcases ihsub b hbs with hold | hnew
        · exact (List.disjoint_of_nodup_append hnd) hb hold
        · rcases hdisj b hnew with hin | hout
          · rw [List.getD_cons_succ] at hin
            exact (List.disjoint_of_nodup_append hnd) hb
              (List.mem_flatMap.mpr ⟨cs.getD t none, mem_getD (by simpa using hs), hin⟩)
          · exact hout (List.mem_append_left _ hb)
      · intro b hb
        rcases List.mem_append.mp hb with hb | hb
        · exact .inl (List.mem_append_left _ hb)
        · rcases ihsub b hb with hold | hnew
          · exact .inl (List.mem_append_right _ hold)
          · exact .inr hnew

end PVec

namespace PVec

theorem self_mem_addrList (h : Heap) (L a : Nat) : a ∈ addrList h L (some a) := by
  match L with
  | 0 => simp [addrList]
  | l+1 =>
    cases hg : hget h a with
    | none => simp [addrList, hg]
    | some nd => simp [addrList, hg]

theorem wfAddr_lt {h : Heap} {L b : Nat} (hwf : nodeWF h L (some b) = true) :
    b < h.length := by
  match L with
  | 0 =>
    cases hg : hget h b with
    | none => simp [nodeWF, hg] at hwf
    | some nd => exact hget_lt hg
  | l+1 =>
    cases hg : hget h b with
    | none => simp [nodeWF, hg] at hwf
    | some nd => exact hget_lt hg

theorem flatMap_replicate_none {f : Option Nat → List Nat} (hnil : f none = [])
    (n : Nat) : (List.replicate n (none : Option Nat)).flatMap f = [] := by
  rw [List.eq_nil_iff_forall_not_mem]
  intro b hb
  obtain ⟨c, hc, hbc⟩ := List.mem_flatMap.mp hb
  rw [List.eq_of_mem_replicate hc, hnil] at hbc
  cases hbc

/-- Rebuilding the flattened child-region list after one child's region is
replaced in place (the list of children itself unchanged): the result is
duplicate-free and only holds old region members and new-region members. -/
theorem flatMap_update_nodup {f g : Option Nat → List Nat} (c0 : Option Nat) :
    ∀ l : List (Option Nat),
      (l.flatMap f).Nodup →
      c0 ∈ l →
      f c0 ≠ [] →
      (g c0).Nodup →
      (∀ b ∈ g c0, b ∈ f c0 ∨ b ∉ l.flatMap f) →
      (∀ c ∈ l, c ≠ c0 → g c = f c) →
      ((l.flatMap g).Nodup ∧
        ∀ b ∈ l.flatMap g, b ∈ l.flatMap f ∨ b ∈ g c0) := by
  intro l
  induction l with
  | nil =>
    intro _ hmem
    cases hmem
  | cons c cs ih =>
    intro hnd hmem hne hgnd hgsub hgeq
    rw [List.flatMap_cons] at hnd ⊢
    by_cases hc : c = c0
    · subst hc
      have hc0cs : c ∉ cs := by
        intro hcs
        obtain ⟨x, hx⟩ := List.exists_mem_of_ne_nil _ hne
        exact (List.disjoint_of_nodup_append hnd) hx
          (List.mem_flatMap.mpr ⟨c, hcs, hx⟩)
      have hcs_eq : cs.flatMap g = cs.flatMap f :=
        flatMap_congr (fun c' hc' => hgeq c' (List.mem_cons_of_mem c hc')
          (fun hEq => hc0cs (hEq ▸ hc')))
      rw [hcs_eq]
      constructor
      · rw [List.nodup_append]
        refine ⟨hgnd, hnd.of_append_right, ?_⟩
        intro b hb hbc
        rcases hgsub b hb with hin | hout
        · exact (List.disjoint_of_nodup_append hnd) hin hbc
        · exact hout (List.mem_append_right _ hbc)
      · intro b hb
        rcases List.mem_append.mp hb with hb | hb
        · exact .inr hb
        · exact .inl (List.mem_append_right _ hb)
    · have hmem' : c0 ∈ cs := by
        rcases List.mem_cons.mp hmem with hEq | h'
        · exact absurd hEq.symm hc
        · exact h'
      have hgc : g c = f c := hgeq c (List.mem_cons_self c cs) hc
      have hgsub' : ∀ b ∈ g c0, b ∈ f c0 ∨ b ∉ cs.flatMap f := by
        intro b hb
        rcases hgsub b hb with hin | hout
        · exact .inl hin
        · exact .inr (fun hbc => hout (List.mem_append_right _ hbc))
      obtain ⟨ihnd, ihsub⟩ := ih hnd.of_append_right hmem' hne hgnd hgsub'
        (fun c' hc' => hgeq c' (List.mem_cons_of_mem c hc'))
      rw [hgc]
      constructor
      · rw [List.nodup_append]
        refine ⟨hnd.of_append_left, ihnd, ?_⟩
        intro b hb hbs
        rcases ihsub b hbs with hold | hnew
        · exact (List.disjoint_of_nodup_append hnd) hb hold
        · rcases hgsub b hnew with hin | hout
          · exact (List.disjoint_of_nodup_append hnd) hb
              (List.mem_flatMap.mpr ⟨c0, hmem', hin⟩)
          · exact hout (List.mem_append_left _ hb)
      · intro b hb
        rcases List.mem_append.mp hb with hb | hb
        · exact .inl (List.mem_append_left _ hb)
        · rcases ihsub b hb with hold | hnew
          · exact .inl (List.mem_append_right _ hold)
          · exact .inr hnew

end PVec

namespace PVec

theorem conjPlace_zero (h : Heap) (c : Option Nat) (idx : Nat) (tl : List Val) :
    conjPlace h c 0 idx tl = (h ++ [newLeaf none tl], some h.length) := rfl

theorem conjPlace_succ_some {h : Heap} {a : Nat} {nd : GNode} (L idx : Nat)
    (tl : List Val) (hg : hget h a = some nd) :
    conjPlace h (some a) (L+1) idx tl =
      ((if nd.nodes.getD (indexAt (L+1) idx) none =
            (conjPlace h (nd.nodes.getD (indexAt (L+1) idx) none) L idx tl).2 then
          (conjPlace h (nd.nodes.getD (indexAt (L+1) idx) none) L idx tl).1
        else
          match hget (conjPlace h (nd.nodes.getD (indexAt (L+1) idx) none) L idx tl).1 a with
          | some nd2 =>
            hset (conjPlace h (nd.nodes.getD (indexAt (L+1) idx) none) L idx tl).1 a { nd2 with nodes := nd2.nodes.set (indexAt (L+1) idx) (conjPlace h (nd.nodes.getD (indexAt (L+1) idx) none) L idx tl).2 }
          | none => (conjPlace h (nd.nodes.getD (indexAt (L+1) idx) none) L idx tl).1),
       some a) := by
  conv_lhs => rw [conjPlace]
  simp only [hg]

theorem conjPlace_succ_none (h : Heap) (L idx : Nat) (tl : List Val) :
    conjPlace h none (L+1) idx tl =
      ((match hget (conjPlace (h ++ [newNode none]) none L idx tl).1 h.length with
        | some nd2 =>
          hset (conjPlace (h ++ [newNode none]) none L idx tl).1 h.length { nd2 with nodes := nd2.nodes.set (indexAt (L+1) idx) (conjPlace (h ++ [newNode none]) none L idx tl).2 }
        | none => (conjPlace (h ++ [newNode none]) none L idx tl).1),
       some h.length) := by
  conv_lhs => rw [conjPlace]
  simp only [halloc, hget_append_self, newNode, getD_replicate_none]
  have hnone : ∀ L' idx', (conjPlace (h ++ [{ id := none, nodes := List.replicate nodeWidth none, values := [] }]) none L' idx' tl).2 ≠ none := by
    intro L' idx'
    match L' with
    | 0 => simp [conjPlace_zero]
    | l+1 =>
      rw [conjPlace]
      simp
  rw [if_neg (fun hEq => hnone L idx hEq.symm)]

end PVec

namespace PVec

/-- Specification of the tail push-down walk `conjPlace` on a well-formed,
positionally duplicate-free subtree: it yields a pointer (to the same node
when one existed, to a fresh one otherwise), touches old nodes only inside
the subtree's region (at level 0 it touches no old node at all), keeps
well-formedness and positional uniqueness, adds only old-region or fresh
addresses, makes every index sharing the placement path's digits read the
pushed leaf, and leaves the read of every other index exactly as it was. -/
theorem conjPlace_spec {tl : List Val} (htl : tl.length = nodeWidth) :
    ∀ (level : Nat) (h : Heap) (c : Option Nat) (idx : Nat),
      nodeWF h level c = true →
      (addrList h level c).Nodup →
      ∃ h' af,
        conjPlace h c level idx tl = (h', some af) ∧
        h.length ≤ h'.length ∧
        (∀ b, b < h.length → b ∉ addrList h level c → hget h' b = hget h b) ∧
        (level = 0 → ∀ b, b < h.length → hget h' b = hget h b) ∧
        nodeWF h' level (some af) = true ∧
        (addrList h' level (some af)).Nodup ∧
        (∀ b, b ∈ addrList h' level (some af) → b ∈ addrList h level c ∨ h.length ≤ b) ∧
        (∀ j, pathEqB level j idx = true → walkTrie h' (some af) level j = some tl) ∧
        (∀ j, pathEqB level j idx = false → walkTrie h' (some af) level j = walkTrie h c level j) ∧
        (∀ a, c = some a → 0 < level → af = a) ∧
        (∀ a nd, c = some a → hget h a = some nd →
          ∃ nd', hget h' a = some nd' ∧ nd'.id = nd.id ∧ nd'.values = nd.values ∧
            nd'.nodes.length = nd.nodes.length ∧
            (∀ u, u ≠ indexAt level idx → nd'.nodes.getD u none = nd.nodes.getD u none) ∧
            (∀ a0, nd.nodes.getD (indexAt level idx) none = some a0 → 1 < level →
              nd'.nodes.getD (indexAt level idx) none = some a0)) := by
  intro level
  induction level with
  | zero =>
    intro h c idx hwf hnd
    refine ⟨h ++ [newLeaf none tl], h.length, conjPlace_zero h c idx tl, by simp, ?_, ?_, ?_, ?_, ?_, ?_, ?_, ?_, ?_⟩
    · intro b hb _
      exact hget_append hb
    · intro _ b hb
      exact hget_append hb
    · simp only [nodeWF, hget_append_self, newLeaf]
      simp [htl]
    · simp [addrList]
    · intro b hb
      simp only [addrList, List.mem_singleton] at hb
      exact .inr (le_of_eq hb.symm)
    · intro j _
      simp [walkTrie, hget_append_self, newLeaf]
    · intro j hj
      simp [pathEqB] at hj
    · intro a _ h0
      cases h0
    · intro a nd hc hgq
      refine ⟨nd, ?_, rfl, rfl, rfl, fun u _ => rfl, fun a0 ha0 h1 => absurd h1 (by omega)⟩
      rw [hget_append (hget_lt hgq)]
      exact hgq
  | succ L ih =>
    intro h c idx hwf hnd
    match c with
    | none =>
      -- fresh branch allocated at address h.length, everything below fresh
      have hwf1 : nodeWF (h ++ [newNode none]) L none = true := nodeWF_none _ _
      have hnd1 : (addrList (h ++ [newNode none]) L none).Nodup := by
        rw [addrList_none]; exact List.nodup_nil
      obtain ⟨h2, af2, heq2, hlen2, hfr2, hfr0, hwf2, hnd2, hreg2, hplace2, hkeep2, hsame2, hslot2⟩ :=
        ih (h ++ [newNode none]) none idx hwf1 hnd1
      have hlen1 : (h ++ [newNode none]).length = h.length + 1 := by simp
      have hgB : hget h2 h.length = some (newNode none) := by
        rw [hfr2 h.length (by omega) (by rw [addrList_none]; exact List.not_mem_nil _)]
        exact hget_append_self h (newNode none)
      have hconj : conjPlace h none (L+1) idx tl =
          (hset h2 h.length { newNode none with nodes := (newNode none).nodes.set (indexAt (L+1) idx) (some af2) }, some h.length) := by
        rw [conjPlace_succ_none h L idx tl, heq2]
        simp only [hgB]
      have haf2fresh : h.length + 1 ≤ af2 := by
        have hself : af2 ∈ addrList h2 L (some af2) := self_mem_addrList h2 L af2
        rcases hreg2 af2 hself with hin | hge
        · rw [addrList_none] at hin; cases hin
        · omega
      have hsltB : indexAt (L+1) idx < (newNode none).nodes.length := by
        simp only [newNode, List.length_replicate]
        exact indexAt_lt _ _
      have halt2 : h.length < h2.length := by omega
      have hagree_new : ∀ b ∈ addrList h2 L (some af2),
          hget (hset h2 h.length { newNode none with nodes := (newNode none).nodes.set (indexAt (L+1) idx) (some af2) }) b = hget h2 b := by
        intro b hb
        refine hget_hset_ne _ ?_
        rcases hreg2 b hb with hin | hge
        · rw [addrList_none] at hin; cases hin
        · omega
      obtain ⟨hregeq, hwf4, hwalk4⟩ := region_congr hwf2 hagree_new
      have hgA : hget (hset h2 h.length { newNode none with nodes := (newNode none).nodes.set (indexAt (L+1) idx) (some af2) }) h.length =
          some { newNode none with nodes := (newNode none).nodes.set (indexAt (L+1) idx) (some af2) } :=
        hget_hset_self _ halt2
      obtain ⟨hsetnd, hsetmem⟩ :=
        flatMap_set_nodup (f := fun c' => addrList (h ++ [newNode none]) L c')
          (g := fun c' => addrList (hset h2 h.length { newNode none with nodes := (newNode none).nodes.set (indexAt (L+1) idx) (some af2) }) L c')
          (addrList (hset h2 h.length { newNode none with nodes := (newNode none).nodes.set (indexAt (L+1) idx) (some af2) }) L (some af2))
          (newNode none).nodes (indexAt (L+1) idx) (some af2)
          (by rw [show (newNode none).nodes = List.replicate nodeWidth none from rfl,
                flatMap_replicate_none (addrList_none _ L)]
              exact List.nodup_nil)
          (by intro hmem
              cases List.eq_of_mem_replicate hmem)
          (by rw [hregeq]; exact hnd2)
          (by intro b hb
              right
              rw [show (newNode none).nodes = List.replicate nodeWidth none from rfl,
                flatMap_replicate_none (addrList_none _ L)]
              exact List.not_mem_nil b)
          rfl
          (by intro c' hc' _
              rw [List.eq_of_mem_replicate hc']
              simp [addrList_none])
          hsltB
      refine ⟨_, h.length, hconj, by rw [hset_length]; omega, ?_, ?_, ?_, ?_, ?_, ?_, ?_, ?_, ?_⟩
      · intro b hb _
        rw [hget_hset_ne _ (by omega)]
        rw [hfr2 b (by omega) (by rw [addrList_none]; exact List.not_mem_nil _)]
        exact hget_append hb
      · intro h0
        cases h0
      · -- well-formedness of the filled fresh branch
        simp only [nodeWF, hgA, Bool.and_eq_true, List.all_eq_true, beq_iff_eq, List.isEmpty_iff]
        refine ⟨⟨rfl, by simp [newNode, nodeWidth_eq]⟩, ?_⟩
        intro c' hc'
        rcases List.mem_or_eq_of_mem_set hc' with hold | rfl
        · rw [List.eq_of_mem_replicate hold]
          exact nodeWF_none _ _
        · exact hwf4
      · -- positional uniqueness
        simp only [addrList, hgA, List.nodup_cons]
        refine ⟨?_, hsetnd⟩
        intro hmem
        rcases hsetmem h.length hmem with hold | hnew
        · rw [show (newNode none).nodes = List.replicate nodeWidth none from rfl,
            flatMap_replicate_none (addrList_none _ L)] at hold
          cases hold
        · rw [hregeq] at hnew
          rcases hreg2 h.length hnew with hin | hge
          · rw [addrList_none] at hin; cases hin
          · omega
      · -- the new region is entirely fresh
        intro b hb
        simp only [addrList, hgA, List.mem_cons] at hb
        rcases hb with rfl | hb
        · exact .inr le_rfl
        · rcases hsetmem b hb with hold | hnew
          · rw [show (newNode none).nodes = List.replicate nodeWidth none from rfl,
              flatMap_replicate_none (addrList_none _ L)] at hold
            cases hold
          · rw [hregeq] at hnew
            rcases hreg2 b hnew with hin | hge
            · rw [addrList_none] at hin; cases hin
            · right; omega
      · -- placed reads
        intro j hj
        rw [pathEqB_succ] at hj
        simp only [walkTrie, hgA]
        rw [hj.1, getD_set_self _ hsltB, hwalk4]
        exact hplace2 j hj.2
      · -- preserved reads (they were all nil here)
        intro j hj
        rw [walkTrie_none]
        simp only [pathEqB, Bool.and_eq_false_iff, beq_eq_false_iff_ne] at hj
        simp only [walkTrie, hgA]
        rcases hj with hne | hpf
        · rw [getD_set_ne _ _ (fun hEq => hne hEq.symm),
            show (newNode none).nodes = List.replicate nodeWidth none from rfl,
            getD_replicate_none]
          exact walkTrie_none _ _ _
        · by_cases hdig : indexAt (L+1) j = indexAt (L+1) idx
          · rw [hdig, getD_set_self _ hsltB, hwalk4, hkeep2 j hpf]
            exact walkTrie_none _ _ _
          · rw [getD_set_ne _ _ (fun hEq => hdig hEq.symm),
              show (newNode none).nodes = List.replicate nodeWidth none from rfl,
              getD_replicate_none]
            exact walkTrie_none _ _ _
      · intro a ha
        cases ha
      · intro a' ndq ha' _
        cases ha'
    | some a =>
      cases hg : hget h a with
      | none => simp [nodeWF, hg] at hwf
      | some nd =>
        simp only [nodeWF, hg, Bool.and_eq_true, List.all_eq_true, beq_iff_eq,
          List.isEmpty_iff] at hwf
        obtain ⟨⟨hval, hlen⟩, hch⟩ := hwf
        simp only [addrList, hg, List.nodup_cons] at hnd
        obtain ⟨hnda, hndf⟩ := hnd
        have hslt : indexAt (L+1) idx < nd.nodes.length := by
          rw [hlen]; exact indexAt_lt _ _
        have hcwf : nodeWF h L (nd.nodes.getD (indexAt (L+1) idx) none) = true :=
          hch _ (mem_getD hslt)
        have hcnd : (addrList h L (nd.nodes.getD (indexAt (L+1) idx) none)).Nodup :=
          nodup_flatMap_getD hndf (addrList_none h L) _
        obtain ⟨h2, af2, heq2, hlen2, hfr2, hfr0, hwf2, hnd2, hreg2, hplace2, hkeep2, hsame2, hslot2⟩ :=
          ih h (nd.nodes.getD (indexAt (L+1) idx) none) idx hcwf hcnd
        have ha_lt : a < h.length := hget_lt hg
        have ha_notin : a ∉ addrList h L (nd.nodes.getD (indexAt (L+1) idx) none) :=
          fun hin => hnda (List.mem_flatMap.mpr ⟨_, mem_getD hslt, hin⟩)
        have hget2a : hget h2 a = some nd := by
          rw [hfr2 a ha_lt ha_notin, hg]
        have hflat_lt : ∀ b ∈ nd.nodes.flatMap (fun c' => addrList h L c'), b < h.length := by
          intro b hb
          obtain ⟨c', hc', hbc⟩ := List.mem_flatMap.mp hb
          exact addrList_lt (hch _ hc') b hbc
        by_cases hcc : nd.nodes.getD (indexAt (L+1) idx) none = some af2
        · -- the child stayed in place: no write-back into this node
          have hconj : conjPlace h (some a) (L+1) idx tl = (h2, some a) := by
            rw [conjPlace_succ_some L idx tl hg, heq2]
            rw [if_pos (by rw [hcc])]
          have hagree_other : ∀ c'' ∈ nd.nodes, c'' ≠ nd.nodes.getD (indexAt (L+1) idx) none →
              ∀ b ∈ addrList h L c'', hget h2 b = hget h b := by
            intro c'' hc'' hne b hb
            exact hfr2 b (addrList_lt (hch _ hc'') b hb)
              (fun hbc => region_disjoint_of_mem (addrList_none h L) hndf hc''
                (mem_getD hslt) hne b hb hbc)
          obtain ⟨hundnd, hunmem⟩ :=
            flatMap_update_nodup (f := fun c' => addrList h L c')
              (g := fun c' => addrList h2 L c')
              (nd.nodes.getD (indexAt (L+1) idx) none) nd.nodes hndf (mem_getD hslt)
              (by rw [hcc]
                  exact List.ne_nil_of_mem (self_mem_addrList h L af2))
              (by rw [hcc]; exact hnd2)
              (by rw [hcc]
                  intro b hb
                  rcases hreg2 b hb with hin | hge
                  · rw [hcc] at hin
                    exact .inl hin
                  · exact .inr (fun hbf => absurd (hflat_lt b hbf) (by omega)))
              (by intro c'' hc'' hne
                  exact (region_congr (hch _ hc'') (hagree_other c'' hc'' hne)).1)
          refine ⟨h2, a, hconj, by omega, ?_, ?_, ?_, ?_, ?_, ?_, ?_, ?_, ?_⟩
          · intro b hb hbnot
            refine hfr2 b hb ?_
            intro hbc
            exact hbnot (by
              simp only [addrList, hg, List.mem_cons]
              exact .inr (List.mem_flatMap.mpr ⟨_, mem_getD hslt, hbc⟩))
          · intro h0
            cases h0
          · -- well-formedness is preserved slotwise
            simp only [nodeWF, hget2a, Bool.and_eq_true, List.all_eq_true, beq_iff_eq,
              List.isEmpty_iff]
            refine ⟨⟨hval, hlen⟩, ?_⟩
            intro c'' hc''
            by_cases hne : c'' = nd.nodes.getD (indexAt (L+1) idx) none
            · rw [hne, hcc]; exact hwf2
            · exact (region_congr (hch _ hc'') (hagree_other c'' hc'' hne)).2.1
          · -- positional uniqueness
            simp only [addrList, hget2a, List.nodup_cons]
            refine ⟨?_, hundnd⟩
            intro hmem
            rcases hunmem a hmem with hold | hnew
            · exact hnda hold
            · rw [hcc] at hnew
              rcases hreg2 a hnew with hin | hge
              · exact ha_notin hin
              · omega
          · -- region bound
            intro b hb
            simp only [addrList, hget2a, List.mem_cons] at hb
            rcases hb with rfl | hb
            · exact .inl (by simp [addrList, hg])
            · rcases hunmem b hb with hold | hnew
              · exact .inl (by simp only [addrList, hg, List.mem_cons]; exact .inr hold)
              · rw [hcc] at hnew
                rcases hreg2 b hnew with hin | hge
                · exact .inl (by
                    simp only [addrList, hg, List.mem_cons]
                    exact .inr (List.mem_flatMap.mpr ⟨_, mem_getD hslt, hin⟩))
                · exact .inr hge
          · -- placed reads
            intro j hj
            rw [pathEqB_succ] at hj
            simp only [walkTrie, hget2a]
            rw [hj.1, hcc]
            exact hplace2 j hj.2
          · -- preserved reads
            intro j hj
            simp only [pathEqB, Bool.and_eq_false_iff, beq_eq_false_iff_ne] at hj
            simp only [walkTrie, hget2a, hg]
            by_cases hdig : indexAt (L+1) j = indexAt (L+1) idx
            · have hpf : pathEqB L j idx = false := by
                rcases hj with hne | hpf
                · exact absurd hdig hne
                · exact hpf
              rw [hdig, hcc]
              have := hkeep2 j hpf
              rw [hcc] at this
              exact this
            · -- a different slot: its subtree was untouched
              have hcjne : nd.nodes.getD (indexAt (L+1) j) none ≠ nd.nodes.getD (indexAt (L+1) idx) none := by
                intro hEq
                refine flatMap_nodup_disjoint (addrList_none h L) nd.nodes hndf
                  (indexAt (L+1) j) (indexAt (L+1) idx) hdig af2 ?_ ?_
                · rw [hEq, hcc]
                  exact self_mem_addrList h L af2
                · rw [hcc]
                  exact self_mem_addrList h L af2
              have hjlt : indexAt (L+1) j < nd.nodes.length := by
                rw [hlen]; exact indexAt_lt _ _
              exact (region_congr (hch _ (mem_getD hjlt))
                (hagree_other _ (mem_getD hjlt) hcjne)).2.2 j
          · intro a' ha' _
            cases ha'
            rfl
          · intro a' ndq ha' hgq
            cases ha'
            rw [hg] at hgq
            cases hgq
            exact ⟨nd, hget2a, rfl, rfl, rfl, fun u _ => rfl, fun a0 ha0 _ => ha0⟩
        · -- the slot is written back (a nil fill or the leaf level)
          have hchild0 : nd.nodes.getD (indexAt (L+1) idx) none = none ∨ L = 0 := by
            cases hc' : nd.nodes.getD (indexAt (L+1) idx) none with
            | none => exact .inl rfl
            | some a0 =>
              right
              by_contra hL
              exact hcc (by rw [hc', hsame2 a0 hc' (Nat.pos_of_ne_zero hL)])
          have haf2fresh : h.length ≤ af2 := by
            have hself : af2 ∈ addrList h2 L (some af2) := self_mem_addrList h2 L af2
            rcases hreg2 af2 hself with hin | hge
            · rcases hchild0 with hnone | h0
              · rw [hnone, addrList_none] at hin
                cases hin
              · subst h0
                cases hc' : nd.nodes.getD (indexAt 1 idx) none with
                | none =>
                  rw [hc', addrList_none] at hin
                  cases hin
                | some a0 =>
                  rw [hc'] at hin
                  simp only [addrList, List.mem_singleton] at hin
                  exact absurd (by rw [hc', hin]) hcc
            · exact hge
          have halt2 : a < h2.length := by omega
          have hconj : conjPlace h (some a) (L+1) idx tl =
              (hset h2 a { nd with nodes := nd.nodes.set (indexAt (L+1) idx) (some af2) }, some a) := by
            rw [conjPlace_succ_some L idx tl hg, heq2]
            rw [if_neg (by simpa using hcc)]
            simp only [hget2a]
          have hgA : hget (hset h2 a { nd with nodes := nd.nodes.set (indexAt (L+1) idx) (some af2) }) a =
              some { nd with nodes := nd.nodes.set (indexAt (L+1) idx) (some af2) } :=
            hget_hset_self _ halt2
          have hagree_any : ∀ c'' ∈ nd.nodes, ∀ b ∈ addrList h L c'',
              hget (hset h2 a { nd with nodes := nd.nodes.set (indexAt (L+1) idx) (some af2) }) b = hget h b := by
            intro c'' hc'' b hb
            have hblt : b < h.length := addrList_lt (hch _ hc'') b hb
            have hba : a ≠ b := fun hEq => hnda (hEq ▸ List.mem_flatMap.mpr ⟨c'', hc'', hb⟩)
            rw [hget_hset_ne _ hba]
            by_cases hne : c'' = nd.nodes.getD (indexAt (L+1) idx) none
            · rcases hchild0 with hnone | h0
              · rw [hne, hnone, addrList_none] at hb
                cases hb
              · exact hfr0 h0 b hblt
            · exact hfr2 b hblt
                (fun hbc => region_disjoint_of_mem (addrList_none h L) hndf hc''
                  (mem_getD hslt) hne b hb hbc)
          have hagree_new : ∀ b ∈ addrList h2 L (some af2),
              hget (hset h2 a { nd with nodes := nd.nodes.set (indexAt (L+1) idx) (some af2) }) b = hget h2 b := by
            intro b hb
            refine hget_hset_ne _ ?_
            intro hEq
            rcases hreg2 b hb with hin | hge
            · exact ha_notin (hEq ▸ hin)
            · omega
          obtain ⟨hregeq, hwf4, hwalk4⟩ := region_congr hwf2 hagree_new
          have hnotmem : (some af2) ∉ nd.nodes := by
            intro hmem
            have := wfAddr_lt (hch _ hmem)
            omega
          obtain ⟨hsetnd, hsetmem⟩ :=
            flatMap_set_nodup (f := fun c' => addrList h L c')
              (g := fun c' => addrList (hset h2 a { nd with nodes := nd.nodes.set (indexAt (L+1) idx) (some af2) }) L c')
              (addrList (hset h2 a { nd with nodes := nd.nodes.set (indexAt (L+1) idx) (some af2) }) L (some af2))
              nd.nodes (indexAt (L+1) idx) (some af2)
              hndf hnotmem
              (by rw [hregeq]; exact hnd2)
              (by rw [hregeq]
                  intro b hb
                  rcases hreg2 b hb with hin | hge
                  · exact .inl hin
                  · exact .inr (fun hbf => absurd (hflat_lt b hbf) (by omega)))
              rfl
              (by intro c'' hc'' _
                  exact (region_congr (hch _ hc'') (hagree_any c'' hc'')).1)
              hslt
          refine ⟨_, a, hconj, by rw [hset_length]; omega, ?_, ?_, ?_, ?_, ?_, ?_, ?_, ?_, ?_⟩
          · intro b hb hbnot
            have hba : a ≠ b := fun hEq => hbnot (hEq ▸ (by simp [addrList, hg]))
            rw [hget_hset_ne _ hba]
            refine hfr2 b hb ?_
            intro hbc
            exact hbnot (by
              simp only [addrList, hg, List.mem_cons]
              exact .inr (List.mem_flatMap.mpr ⟨_, mem_getD hslt, hbc⟩))
          · intro h0
            cases h0
          · -- well-formedness
            simp only [nodeWF, hgA, Bool.and_eq_true, List.all_eq_true, beq_iff_eq,
              List.isEmpty_iff]
            refine ⟨⟨hval, by simp [hlen]⟩, ?_⟩
            intro c'' hc''
            rcases List.mem_or_eq_of_mem_set hc'' with hold | rfl
            · exact (region_congr (hch _ hold) (hagree_any c'' hold)).2.1
            · exact hwf4
          · -- positional uniqueness
            simp only [addrList, hgA, List.nodup_cons]
            refine ⟨?_, hsetnd⟩
            intro hmem
            rcases hsetmem a hmem with hold | hnew
            · exact hnda hold
            · rw [hregeq] at hnew
              rcases hreg2 a hnew with hin | hge
              · exact ha_notin hin
              · omega
          · -- region bound
            intro b hb
            simp only [addrList, hgA, List.mem_cons] at hb
            rcases hb with rfl | hb
            · exact .inl (by simp [addrList, hg])
            · rcases hsetmem b hb with hold | hnew
              · exact .inl (by simp only [addrList, hg, List.mem_cons]; exact .inr hold)
              · rw [hregeq] at hnew
                rcases hreg2 b hnew with hin | hge
                · exact .inl (by
                    simp only [addrList, hg, List.mem_cons]
                    exact .inr (List.mem_flatMap.mpr ⟨_, mem_getD hslt, hin⟩))
                · exact .inr hge
          · -- placed reads
            intro j hj
            rw [pathEqB_succ] at hj
            simp only [walkTrie, hgA]
            rw [hj.1, getD_set_self _ hslt, hwalk4]
            exact hplace2 j hj.2
          · -- preserved reads
            intro j hj
            simp only [pathEqB, Bool.and_eq_false_iff, beq_eq_false_iff_ne] at hj
            simp only [walkTrie, hgA, hg]
            by_cases hdig : indexAt (L+1) j = indexAt (L+1) idx
            · have hpf : pathEqB L j idx = false := by
                rcases hj with hne | hpf
                · exact absurd hdig hne
                · exact hpf
              rw [hdig, getD_set_self _ hslt, hwalk4]
              exact hkeep2 j hpf
            · have hjlt : indexAt (L+1) j < nd.nodes.length := by
                rw [hlen]; exact indexAt_lt _ _
              rw [getD_set_ne _ _ (fun hEq => hdig hEq.symm)]
              exact (region_congr (hch _ (mem_getD hjlt))
                (hagree_any _ (mem_getD hjlt))).2.2 j
          · intro a' ha' _
            cases ha'
            rfl
          · intro a' ndq ha' hgq
            cases ha'
            rw [hg] at hgq
            cases hgq
            refine ⟨_, hgA, rfl, rfl, by simp, ?_, ?_⟩
            · intro u hu
              exact getD_set_ne _ _ (fun hEq => hu hEq.symm)
            · intro a0 ha0 hL1
              exact absurd (show nd.nodes.getD (indexAt (L+1) idx) none = some af2 by
                rw [ha0, hsame2 a0 ha0 (by omega)]) hcc

end PVec

namespace PVec

theorem hset_append_self (h : Heap) (n n' : GNode) :
    hset (h ++ [n]) h.length n' = h ++ [n'] := by
  rw [hset, List.set_append_right _ _ (le_refl _)]
  simp

theorem VecRep.root_some {h : Heap} {v : Vec} {l : List Val} (rep : VecRep h v l)
    (hpos : 0 < trieSize v) : ∃ a0, v.root = some a0 := by
  cases hr : v.root with
  | some a0 => exact ⟨a0, rfl⟩
  | none =>
    have hrd := rep.reads 0 hpos
    rw [readTrie, hr, walkTrie_none] at hrd
    have h0 : 0 < l.length := by
      have := rep.count_eq
      have := rep.tail_le
      unfold trieSize at hpos
      omega
    rw [List.get?_eq_getElem?, List.getElem?_eq_getElem h0] at hrd
    cases hrd

theorem shiftR5 (j : Nat) : j >>> 5 = j / 32 := by
  have := Nat.shiftRight_eq_div_pow j 5
  norm_num at this
  exact this

/-- Below the pushed block, the digit path differs from the placement path. -/
theorem pathEqB_false_of_lt {d m j : Nat} (hm : m % 32 = 0) (hdiv : m / 32 < 2 ^ d)
    (hj : j < m) : pathEqB d j (m + 31) = false := by
  rw [Bool.eq_false_iff]
  intro hp
  rw [pathEqB_iff_mod, shiftR5, shiftR5] at hp
  have h232 : (2 : Nat) ^ d ≤ 32 ^ d := Nat.pow_le_pow_left (by norm_num) d
  have hj32 : j / 32 < m / 32 := by omega
  have hm32 : (m + 31) / 32 = m / 32 := by omega
  rw [hm32, Nat.mod_eq_of_lt (by omega), Nat.mod_eq_of_lt (by omega)] at hp
  omega

/-- Inside the pushed block, the digit path equals the placement path. -/
theorem pathEqB_true_of_block {d m j : Nat} (hm : m % 32 = 0) (hj1 : m ≤ j)
    (hj2 : j < m + 32) : pathEqB d j (m + 31) = true := by
  rw [pathEqB_iff_mod, shiftR5, shiftR5]
  have : j / 32 = (m + 31) / 32 := by omega
  rw [this]

theorem indexAt_zero_of_lt {d j : Nat} (hj : j < 32 * 2 ^ d) :
    indexAt (d + 1) j = 0 := by
  rw [indexAt_eq]
  have h232 : (2 : Nat) ^ d ≤ 32 ^ d := Nat.pow_le_pow_left (by norm_num) d
  have hcap : 32 * 2 ^ d ≤ 32 ^ (d + 1) := by
    rw [pow_succ]
    calc 32 * 2 ^ d = 2 ^ d * 32 := by ring
      _ ≤ 32 ^ d * 32 := by omega
  have : j / 32 ^ (d + 1) = 0 := Nat.div_eq_of_lt (by omega)
  rw [this]

end PVec

namespace PVec

/-- Heap-level correctness of persistent `Conj`: the result represents the
appended list, and the original vector still represents its old list in the
new heap (its reads are untouched even where the push wrote into shared
nodes). -/
theorem conj_rep {h : Heap} {v : Vec} {l : List Val} (rep : VecRep h v l) (x : Val) :
    VecRep (conjH h v x).1 (conjH h v x).2 (l ++ [x]) ∧
    VecRep (conjH h v x).1 v l := by
  have hm32 := rep.size_mod
  have htl := rep.tail_le
  have htc := rep.tail_cap
  have hce := rep.count_eq
  have hsl := rep.size_le
  rw [nodeWidth_eq] at htc hm32
  by_cases hroom : v.tail.length < nodeWidth
  · -- room in the tail
    have hconj : conjH h v x = (h, { v with count := v.count + 1, tail := v.tail ++ [x] }) := by
      simp [conjH, hroom]
    rw [hconj]
    refine ⟨?_, rep⟩
    have htse : trieSize { v with count := v.count + 1, tail := v.tail ++ [x] } = trieSize v := by
      unfold trieSize
      simp
    refine ⟨?_, ?_, ?_, ?_, ?_, ?_, ?_, rep.wf, rep.nodup, ?_⟩
    · simp [hce]
    · simp
      omega
    · rw [nodeWidth_eq] at hroom ⊢
      simp
      omega
    · rw [htse]
      show v.tail ++ [x] = (l ++ [x]).drop (trieSize v)
      rw [List.drop_append_of_le_length (by unfold trieSize; omega), ← rep.tail_eq]
    · rw [htse]
      exact rep.size_mod
    · rw [htse]
      simpa using rep.size_le
    · intro hnil
      simp at hnil
    · intro j hj
      rw [htse] at hj
      show readTrie h v.root v.depth j = _
      rw [rep.reads j hj, List.get?_append (by unfold trieSize at hj; omega)]
  · -- tail full: push it into the trie
    have hfull : v.tail.length = nodeWidth := by
      rw [nodeWidth_eq] at hroom ⊢
      omega
    have hf32 : v.tail.length = 32 := by rw [hfull, nodeWidth_eq]
    have hcount : v.count = trieSize v + 32 := by
      unfold trieSize
      omega
    have hidx : v.count - 1 = trieSize v + 31 := by omega
    by_cases hdeep : isDeepEnoughToAppend v.depth v.count = true
    · -- no deepening: place below the existing root
      obtain ⟨h2, af2, heq, hlen2, hfr, hfr0, hwf2, hnd2, hreg2, hplace, hkeep, hsame, hslot⟩ :=
        conjPlace_spec hfull v.depth h v.root (v.count - 1) rep.wf rep.nodup
      have hconj : conjH h v x =
          (h2, { count := v.count + 1, depth := v.depth, tail := [x], root := some af2 }) := by
        simp only [conjH, if_neg hroom, hdeep, if_pos, heq]
      have hdiv : trieSize v / 32 < 2 ^ v.depth := by
        rw [isDeepEnoughToAppend_iff] at hdeep
        omega
      have hfalse : ∀ j, j < trieSize v → pathEqB v.depth j (v.count - 1) = false := by
        intro j hj
        rw [hidx]
        exact pathEqB_false_of_lt hm32 hdiv hj
      have htrue : ∀ j, trieSize v ≤ j → j < v.count → pathEqB v.depth j (v.count - 1) = true := by
        intro j hj1 hj2
        rw [hidx]
        exact pathEqB_true_of_block hm32 hj1 (by omega)
      rw [hconj]
      constructor
      · -- the new vector represents l ++ [x]
        refine ⟨?_, ?_, ?_, ?_, ?_, ?_, ?_, hwf2, hnd2, ?_⟩
        · simp [hce]
        · simp
        · simp [nodeWidth_eq]
        · show [x] = (l ++ [x]).drop _
          have : trieSize { count := v.count + 1, depth := v.depth, tail := [x], root := some af2 } = v.count := by
            unfold trieSize
            simp
          rw [this, hce, List.drop_left]
        · show (v.count + 1 - 1) % nodeWidth = 0
          rw [nodeWidth_eq]
          omega
        · show v.count + 1 - 1 ≤ nodeWidth * 2 ^ v.depth
          rw [nodeWidth_eq] at hsl ⊢
          omega
        · intro hnil
          simp at hnil
        · intro j hj
          have hj' : j < v.count := by
            unfold trieSize at hj
            simpa using hj
          have hjlen : j < l.length := by omega
          show readTrie h2 (some af2) v.depth j = (l ++ [x]).get? j
          rw [List.get?_append hjlen]
          by_cases hjm : j < trieSize v
          · have hrt : readTrie h2 (some af2) v.depth j = readTrie h v.root v.depth j := by
              simp only [readTrie, hkeep j (hfalse j hjm)]
            rw [hrt]
            exact rep.reads j hjm
          · have hj1 : trieSize v ≤ j := by omega
            simp only [readTrie, hplace j (htrue j hj1 hj')]
            rw [indexAt_zero]
            have hjmod : j % 32 = j - trieSize v := by
              unfold trieSize at *
              omega
            rw [hjmod, rep.tail_eq, List.get?_eq_getElem?, List.get?_eq_getElem?,
              List.getElem?_drop, Nat.add_sub_cancel' hj1]
      · -- the original vector still represents l
        refine ⟨hce, htl, rep.tail_cap, rep.tail_eq, rep.size_mod, rep.size_le, rep.tail_nil, ?_, ?_, ?_⟩
        · -- well-formedness of the old root in the new heap
          cases hr : v.root with
          | none => exact nodeWF_none _ _
          | some a0 =>
            rcases Nat.eq_zero_or_pos v.depth with hd | hd
            · have hwfr := rep.wf
              rw [hr] at hwfr
              have hagree : ∀ b ∈ addrList h v.depth (some a0), hget h2 b = hget h b :=
                fun b hb => hfr0 hd b (addrList_lt hwfr b hb)
              exact (region_congr hwfr hagree).2.1
            · have haf : af2 = a0 := hsame a0 hr hd
              rw [← haf]
              exact hwf2
        · -- positional uniqueness of the old root in the new heap
          cases hr : v.root with
          | none =>
            rw [addrList_none]
            exact List.nodup_nil
          | some a0 =>
            rcases Nat.eq_zero_or_pos v.depth with hd | hd
            · have hwfr := rep.wf
              rw [hr] at hwfr
              have hagree : ∀ b ∈ addrList h v.depth (some a0), hget h2 b = hget h b :=
                fun b hb => hfr0 hd b (addrList_lt hwfr b hb)
              rw [(region_congr hwfr hagree).1]
              have hndr := rep.nodup
              rw [hr] at hndr
              exact hndr
            · have haf : af2 = a0 := hsame a0 hr hd
              rw [← haf]
              exact hnd2
        · -- old reads in the new heap
          intro j hj
          have hrd := rep.reads j hj
          cases hr : v.root with
          | none =>
            obtain ⟨a0, hsome⟩ := rep.root_some (by omega)
            rw [hr] at hsome
            cases hsome
          | some a0 =>
            rw [hr] at hrd
            rcases Nat.eq_zero_or_pos v.depth with hd | hd
            · have hwfr := rep.wf
              rw [hr] at hwfr
              have hagree : ∀ b ∈ addrList h v.depth (some a0), hget h2 b = hget h b :=
                fun b hb => hfr0 hd b (addrList_lt hwfr b hb)
              have hrt : readTrie h2 (some a0) v.depth j = readTrie h (some a0) v.depth j := by
                simp only [readTrie, (region_congr hwfr hagree).2.2 j]
              rw [hrt]
              exact hrd
            · have haf : af2 = a0 := hsame a0 hr hd
              have hk := hkeep j (hfalse j hj)
              rw [haf, hr] at hk
              have hrt : readTrie h2 (some a0) v.depth j = readTrie h (some a0) v.depth j := by
                simp only [readTrie, hk]
              rw [hrt]
              exact hrd
    · -- deepen the tree with a fresh root, then place through it
      have hdeepF : isDeepEnoughToAppend v.depth v.count = false := Bool.eq_false_iff.mpr hdeep
      have hdeep' : ¬(v.count / 32 ≤ 2 ^ v.depth) := by
        rw [isDeepEnoughToAppend_iff] at hdeep
        exact hdeep
      have hdle : trieSize v / 32 ≤ 2 ^ v.depth := by
        rw [nodeWidth_eq] at hsl
        omega
      have hdiv2 : trieSize v / 32 = 2 ^ v.depth := by omega
      have hone : 1 ≤ 2 ^ v.depth := Nat.one_le_two_pow
      have hmeq : trieSize v = 32 * 2 ^ v.depth := by omega
      have hm_pos : 0 < trieSize v := by omega
      obtain ⟨r, hr⟩ := rep.root_some hm_pos
      have hagree_D : ∀ b ∈ addrList h v.depth v.root,
          hget (h ++ [GNode.mk none ((List.replicate nodeWidth none).set 0 v.root) []]) b = hget h b :=
        fun b hb => hget_append (addrList_lt rep.wf b hb)
      have hgB : hget (h ++ [GNode.mk none ((List.replicate nodeWidth none).set 0 v.root) []]) h.length =
          some (GNode.mk none ((List.replicate nodeWidth none).set 0 v.root) []) :=
        hget_append_self h _
      have hwfB : nodeWF (h ++ [GNode.mk none ((List.replicate nodeWidth none).set 0 v.root) []]) (v.depth + 1) (some h.length) = true := by
        simp only [nodeWF, hgB, Bool.and_eq_true, List.all_eq_true, beq_iff_eq, List.isEmpty_iff]
        refine ⟨⟨trivial, by simp⟩, ?_⟩
        intro c' hc'
        rcases List.mem_or_eq_of_mem_set hc' with hold | rfl
        · rw [List.eq_of_mem_replicate hold]
          exact nodeWF_none _ _
        · exact (region_congr rep.wf hagree_D).2.1
      have hndB : (addrList (h ++ [GNode.mk none ((List.replicate nodeWidth none).set 0 v.root) []]) (v.depth + 1) (some h.length)).Nodup := by
        simp only [addrList, hgB, List.nodup_cons]
        constructor
        · intro hmem
          obtain ⟨c', hc', hbc⟩ := List.mem_flatMap.mp hmem
          rcases List.mem_or_eq_of_mem_set hc' with hold | rfl
          · rw [List.eq_of_mem_replicate hold, addrList_none] at hbc
            cases hbc
          · rw [(region_congr rep.wf hagree_D).1] at hbc
            exact absurd (addrList_lt rep.wf _ hbc) (by omega)
        · obtain ⟨hnd', _⟩ :=
            flatMap_set_nodup (f := fun c' => addrList (h ++ [GNode.mk none ((List.replicate nodeWidth none).set 0 v.root) []]) v.depth c')
              (g := fun c' => addrList (h ++ [GNode.mk none ((List.replicate nodeWidth none).set 0 v.root) []]) v.depth c')
              (addrList (h ++ [GNode.mk none ((List.replicate nodeWidth none).set 0 v.root) []]) v.depth v.root)
              (List.replicate nodeWidth none) 0 v.root
              (by rw [flatMap_replicate_none (addrList_none _ v.depth)]
                  exact List.nodup_nil)
              (by rw [hr]
                  intro hmem
                  cases List.eq_of_mem_replicate hmem)
              (by rw [(region_congr rep.wf hagree_D).1]
                  exact rep.nodup)
              (by intro b _
                  right
                  rw [flatMap_replicate_none (addrList_none _ v.depth)]
                  exact List.not_mem_nil b)
              rfl
              (fun _ _ _ => rfl)
              (by simp [nodeWidth_eq])
          exact hnd'
      obtain ⟨h2, af2, heq, hlen2, hfr, hfr0x, hwf2, hnd2, hreg2, hplace, hkeep, hsame, hslot⟩ :=
        conjPlace_spec hfull (v.depth + 1) (h ++ [GNode.mk none ((List.replicate nodeWidth none).set 0 v.root) []]) (some h.length) (v.count - 1) hwfB hndB
      have haf : af2 = h.length := hsame h.length rfl (by omega)
      have hconj : conjH h v x =
          (h2, { count := v.count + 1, depth := v.depth + 1, tail := [x], root := some af2 }) := by
        simp only [conjH, if_neg hroom, if_neg hdeep, halloc, hget_append_self]
        rw [show ({ newNode none with nodes := (newNode none).nodes.set 0 v.root } : GNode) =
          GNode.mk none ((List.replicate nodeWidth none).set 0 v.root) [] from rfl]
        rw [hset_append_self, heq]
      have hfalse : ∀ j, j < trieSize v → pathEqB (v.depth + 1) j (v.count - 1) = false := by
        intro j hj
        rw [hidx]
        refine pathEqB_false_of_lt hm32 ?_ hj
        have hp : (2 : Nat) ^ (v.depth + 1) = 2 ^ v.depth * 2 := pow_succ 2 v.depth
        omega
      have htrue : ∀ j, trieSize v ≤ j → j < v.count → pathEqB (v.depth + 1) j (v.count - 1) = true := by
        intro j hj1 hj2
        rw [hidx]
        exact pathEqB_true_of_block hm32 hj1 (by omega)
      have hwD : ∀ j, j < trieSize v →
          walkTrie (h ++ [GNode.mk none ((List.replicate nodeWidth none).set 0 v.root) []]) (some h.length) (v.depth + 1) j =
          walkTrie h v.root v.depth j := by
        intro j hj
        simp only [walkTrie, hgB]
        rw [indexAt_zero_of_lt (by omega)]
        rw [getD_set_self _ (by simp [nodeWidth_eq])]
        exact (region_congr rep.wf hagree_D).2.2 j
      rw [hconj]
      constructor
      · -- the new vector represents l ++ [x]
        refine ⟨?_, ?_, ?_, ?_, ?_, ?_, ?_, hwf2, hnd2, ?_⟩
        · simp [hce]
        · simp
        · simp [nodeWidth_eq]
        · show [x] = (l ++ [x]).drop _
          have : trieSize { count := v.count + 1, depth := v.depth + 1, tail := [x], root := some af2 } = v.count := by
            unfold trieSize
            simp
          rw [this, hce, List.drop_left]
        · show (v.count + 1 - 1) % nodeWidth = 0
          rw [nodeWidth_eq]
          omega
        · show v.count + 1 - 1 ≤ nodeWidth * 2 ^ (v.depth + 1)
          rw [nodeWidth_eq]
          have hp : (2 : Nat) ^ (v.depth + 1) = 2 ^ v.depth * 2 := pow_succ 2 v.depth
          omega
        · intro hnil
          simp at hnil
        · intro j hj
          have hj' : j < v.count := by
            unfold trieSize at hj
            simpa using hj
          have hjlen : j < l.length := by omega
          show readTrie h2 (some af2) (v.depth + 1) j = (l ++ [x]).get? j
          rw [List.get?_append hjlen]
          by_cases hjm : j < trieSize v
          · have hrt : readTrie h2 (some af2) (v.depth + 1) j = readTrie h v.root v.depth j := by
              simp only [readTrie, hkeep j (hfalse j hjm), hwD j hjm]
            rw [hrt]
            exact rep.reads j hjm
          · have hj1 : trieSize v ≤ j := by omega
            simp only [readTrie, hplace j (htrue j hj1 hj')]
            rw [indexAt_zero]
            have hjmod : j % 32 = j - trieSize v := by
              unfold trieSize at *
              omega
            rw [hjmod, rep.tail_eq, List.get?_eq_getElem?, List.get?_eq_getElem?,
              List.getElem?_drop, Nat.add_sub_cancel' hj1]
      · -- the original vector still represents l, hanging under the new root
        obtain ⟨nd', hgn', hid', hval', hlen', hne', hkeepslot⟩ :=
          hslot h.length (GNode.mk none ((List.replicate nodeWidth none).set 0 v.root) []) rfl hgB
        have hBslot0 : ((List.replicate nodeWidth none).set 0 v.root).getD 0 none = v.root :=
          getD_set_self _ (by simp [nodeWidth_eq])
        have hslot0 : nd'.nodes.getD 0 none = v.root := by
          by_cases hstop : indexAt (v.depth + 1) (v.count - 1) = 0
          · have hdpos : 0 < v.depth := by
              by_contra hd0
              have hd0' : v.depth = 0 := by omega
              rw [hd0'] at hdiv2
              have hc64 : v.count - 1 = 63 := by omega
              rw [hd0', hc64] at hstop
              exact absurd hstop (by decide)
            have hks := hkeepslot r (by rw [hstop, hBslot0, hr]) (by omega)
            rw [hstop] at hks
            rw [hks, hr]
          · rw [hne' 0 (fun hEq => hstop hEq.symm)]
            exact hBslot0
        have hgn2 : hget h2 h.length = some nd' := hgn'
        have hndlen : 0 < nd'.nodes.length := by
          rw [hlen']
          simp [nodeWidth_eq]
        have hchw : nodeWF h2 v.depth v.root = true := by
          have hwfc := hwf2
          rw [haf] at hwfc
          simp only [nodeWF, hgn2, Bool.and_eq_true, List.all_eq_true, beq_iff_eq,
            List.isEmpty_iff] at hwfc
          have := hwfc.2 _ (mem_getD hndlen)
          rwa [hslot0] at this
        have hwalk_old : ∀ j, j < trieSize v →
            walkTrie h2 v.root v.depth j = walkTrie h v.root v.depth j := by
          intro j hj
          have hchain : walkTrie h2 (some af2) (v.depth + 1) j = walkTrie h v.root v.depth j := by
            rw [hkeep j (hfalse j hj), hwD j hj]
          have hunf : walkTrie h2 (some af2) (v.depth + 1) j = walkTrie h2 v.root v.depth j := by
            rw [haf]
            simp only [walkTrie, hgn2]
            rw [indexAt_zero_of_lt (by omega), hslot0]
          rw [← hunf, hchain]
        refine ⟨hce, htl, rep.tail_cap, rep.tail_eq, rep.size_mod, rep.size_le, rep.tail_nil, hchw, ?_, ?_⟩
        · -- positional uniqueness of the old root in the new heap
          have hndc := hnd2
          rw [haf] at hndc
          simp only [addrList, hgn2, List.nodup_cons] at hndc
          have := nodup_flatMap_getD (f := fun c' => addrList h2 v.depth c') hndc.2 (addrList_none h2 v.depth) 0
          rwa [hslot0] at this
        · intro j hj
          have hrt : readTrie h2 v.root v.depth j = readTrie h v.root v.depth j := by
            simp only [readTrie, hwalk_old j hj]
          rw [hrt]
          exact rep.reads j hj

end PVec

namespace PVec

/-- C3: `Vector.Conj` grows the vector by one — `v.Conj(x).Len() = v.Len() + 1`
and `v.Conj(x).Peek() = x` — and `v` itself is unaffected: its `Len` field is
untouched and every `v.Nth(j)` reads the same value after the call. -/
theorem c3_conj_growth {h : Heap} {v : Vec} {l : List Val} (rep : VecRep h v l) (x : Val) :
    lenH (conjH h v x).2 = lenH v + 1 ∧
    peekH (conjH h v x).1 (conjH h v x).2 = .ok x ∧
    (∀ j : Int, nthH (conjH h v x).1 v j = nthH h v j) := by
  obtain ⟨repN, repO⟩ := conj_rep rep x
  refine ⟨?_, ?_, ?_⟩
  · show (conjH h v x).2.count = v.count + 1
    rw [repN.count_eq, rep.count_eq, List.length_append, List.length_singleton]
  · have hcc : (conjH h v x).2.count = l.length + 1 := by
      rw [repN.count_eq, List.length_append, List.length_singleton]
    have h0 : (0 : Int) ≤ ((conjH h v x).2.count : Int) - 1 := by
      rw [hcc]
      push_cast
      omega
    have hc : ((conjH h v x).2.count : Int) - 1 < ((conjH h v x).2.count : Int) := by omega
    have hy : (l ++ [x]).get? (((conjH h v x).2.count : Int) - 1).toNat = some x := by
      have hto : (((conjH h v x).2.count : Int) - 1).toNat = l.length := by
        rw [hcc]
        push_cast
        omega
      rw [hto]
      exact List.get?_concat_length l x
    exact nth_ok repN h0 hc hy
  · intro j
    by_cases hin : 0 ≤ j ∧ j < (v.count : Int)
    · obtain ⟨hj0, hjc⟩ := hin
      cases hg : l.get? j.toNat with
      | none =>
        have := List.get?_eq_none.mp hg
        rw [rep.count_eq] at hjc
        omega
      | some y =>
        rw [nth_ok repO hj0 hjc hg, nth_ok rep hj0 hjc hg]
    · have hg : j < 0 ∨ (v.count : Int) ≤ j := by omega
      simp only [nthH, nthCore, findValuesH, if_pos hg]

/-- C3 witness: appending `9` to `New(5, 7)`. -/
theorem c3_witness :
    lenH (conjH (runNew [5, 7]).1 (runNew [5, 7]).2 9).2 = lenH (runNew [5, 7]).2 + 1 ∧
    peekH (conjH (runNew [5, 7]).1 (runNew [5, 7]).2 9).1
      (conjH (runNew [5, 7]).1 (runNew [5, 7]).2 9).2 = .ok 9 ∧
    (∀ j : Int, nthH (conjH (runNew [5, 7]).1 (runNew [5, 7]).2 9).1 (runNew [5, 7]).2 j =
      nthH (runNew [5, 7]).1 (runNew [5, 7]).2 j) :=
  c3_conj_growth (l := [5, 7])
    ⟨by decide, by decide, by decide, by decide, by decide, by decide, by decide, by decide, by decide, by decide⟩ 9

end PVec

namespace PVec

theorem vecInv_conj {v : Vec} (hv : VecInv v) (h : Heap) (x : Val) :
    VecInv (conjH h v x).2 := by
  have hts := hv.size_mod
  have htl := hv.tail_le
  have htc := hv.tail_cap
  have hsl := hv.size_le
  have hnil := hv.tail_nil
  rw [nodeWidth_eq] at htc
  unfold trieSize at hts hsl
  rw [nodeWidth_eq] at hts hsl
  by_cases hroom : v.tail.length < nodeWidth
  · simp only [conjH, if_pos hroom]
    rw [nodeWidth_eq] at hroom
    refine ⟨?_, ?_, ?_, ?_, ?_⟩
    · simp only [List.length_append, List.length_singleton]
      omega
    · simp only [List.length_append, List.length_singleton, nodeWidth_eq]
      omega
    · simp only [trieSize, List.length_append, List.length_singleton, nodeWidth_eq]
      omega
    · simp only [trieSize, List.length_append, List.length_singleton, nodeWidth_eq]
      omega
    · intro h0
      simp at h0
  · have hlen32 : v.tail.length = 32 := by
      rw [nodeWidth_eq] at hroom
      omega
    by_cases hdeep : isDeepEnoughToAppend v.depth v.count = true
    · have hcd : v.count / 32 ≤ 2 ^ v.depth := (isDeepEnoughToAppend_iff _ _).mp hdeep
      simp only [conjH, if_neg hroom, if_pos hdeep]
      refine ⟨?_, ?_, ?_, ?_, ?_⟩
      · simp only [List.length_singleton]
        omega
      · simp only [List.length_singleton, nodeWidth_eq]
        omega
      · simp only [trieSize, List.length_singleton, nodeWidth_eq]
        omega
      · simp only [trieSize, List.length_singleton, nodeWidth_eq]
        omega
      · intro h0
        simp at h0
    · simp only [conjH, if_neg hroom, if_neg hdeep]
      have hp : (2 : Nat) ^ (v.depth + 1) = 2 ^ v.depth * 2 := pow_succ 2 v.depth
      have hone : 1 ≤ 2 ^ v.depth := Nat.one_le_two_pow
      refine ⟨?_, ?_, ?_, ?_, ?_⟩
      · simp only [List.length_singleton]
        omega
      · simp only [List.length_singleton, nodeWidth_eq]
        omega
      · simp only [trieSize, List.length_singleton, nodeWidth_eq]
        omega
      · simp only [trieSize, List.length_singleton, nodeWidth_eq]
        omega
      · intro h0
        simp at h0

theorem vecInv_assoc {h : Heap} {v : Vec} {i : Int} {x : Val} {h' : Heap} {v' : Vec}
    (hok : assocH h v i x = .ok (h', v')) (hv : VecInv v) : VecInv v' := by
  by_cases hg : i < 0 ∨ (v.count : Int) ≤ i
  · rw [assocH, if_pos hg] at hok
    exact Except.noConfusion hok
  · rw [assocH, if_neg hg] at hok
    by_cases ht : indexInTail i.toNat v.count v.tail = true
    · rw [if_pos ht, Except.ok.injEq, Prod.mk.injEq] at hok
      obtain ⟨-, hveq⟩ := hok
      rw [← hveq]
      refine ⟨?_, ?_, ?_, ?_, ?_⟩
      · simpa [List.length_set] using hv.tail_le
      · simpa [List.length_set] using hv.tail_cap
      · simpa [trieSize, List.length_set] using hv.size_mod
      · simpa [trieSize, List.length_set] using hv.size_le
      · intro h0
        apply hv.tail_nil
        have := congrArg List.length h0
        simp only [List.length_set, List.length_nil] at this
        exact List.length_eq_zero.mp this
    · rw [if_neg ht] at hok
      cases hp : assocPath h v.root v.depth i.toNat x with
      | none =>
        rw [hp] at hok
        exact Except.noConfusion hok
      | some pr =>
        obtain ⟨h1, r1⟩ := pr
        rw [hp, Except.ok.injEq, Prod.mk.injEq] at hok
        obtain ⟨-, hveq⟩ := hok
        rw [← hveq]
        exact ⟨hv.tail_le, hv.tail_cap, hv.size_mod, hv.size_le, hv.tail_nil⟩

theorem vecInv_tassoc {h : Heap} {t : TVec} {i : Int} {x : Val} {h' : Heap} {t' : TVec}
    (hok : tAssocH h t i x = .ok (h', t')) (hv : VecInv t.toVec) : VecInv t'.toVec := by
  by_cases hinv : t.invalid = true
  · rw [tAssocH, if_pos hinv] at hok
    exact Except.noConfusion hok
  · rw [tAssocH, if_neg hinv] at hok
    by_cases hg : i < 0 ∨ (t.count : Int) ≤ i
    · rw [if_pos hg] at hok
      exact Except.noConfusion hok
    · rw [if_neg hg] at hok
      by_cases htt : indexInTail i.toNat t.count t.tail = true
      · rw [if_pos htt, Except.ok.injEq, Prod.mk.injEq] at hok
        obtain ⟨-, hveq⟩ := hok
        rw [← hveq]
        refine ⟨?_, ?_, ?_, ?_, ?_⟩
        · simpa [TVec.toVec, List.length_set] using hv.tail_le
        · simpa [TVec.toVec, List.length_set] using hv.tail_cap
        · simpa [TVec.toVec, trieSize, List.length_set] using hv.size_mod
        · simpa [TVec.toVec, trieSize, List.length_set] using hv.size_le
        · intro h0
          apply hv.tail_nil
          simp only [TVec.toVec] at h0 ⊢
          have := congrArg List.length h0
          simp only [List.length_set, List.length_nil] at this
          exact List.length_eq_zero.mp this
      · rw [if_neg htt] at hok
        cases hr : t.root with
        | none =>
          simp only [hr] at hok
          exact Except.noConfusion hok
        | some ra =>
          simp only [hr] at hok
          cases hg2 : hget h ra with
          | none =>
            simp only [hg2] at hok
            exact Except.noConfusion hok
          | some rnd =>
            simp only [hg2] at hok
            cases hfx : tAssocFix (if rnd.id = t.id then (h, ra) else
                ((halloc h { id := t.id, nodes := rnd.nodes, values := rnd.values }).1,
                 (halloc h { id := t.id, nodes := rnd.nodes, values := rnd.values }).2)).1 t.id
                (if rnd.id = t.id then (h, ra) else
                ((halloc h { id := t.id, nodes := rnd.nodes, values := rnd.values }).1,
                 (halloc h { id := t.id, nodes := rnd.nodes, values := rnd.values }).2)).2
                t.depth i.toNat x with
            | none =>
              simp only [hfx] at hok
              exact Except.noConfusion hok
            | some h2 =>
              simp only [hfx, Except.ok.injEq, Prod.mk.injEq] at hok
              obtain ⟨-, hveq⟩ := hok
              rw [← hveq]
              exact ⟨hv.tail_le, hv.tail_cap, hv.size_mod, hv.size_le, hv.tail_nil⟩

theorem vecInv_tconj {h : Heap} {t : TVec} {x : Val} {h' : Heap} {t' : TVec}
    (hok : tConjH h t x = .ok (h', t')) (hv : VecInv t.toVec) : VecInv t'.toVec := by
  have hts := hv.size_mod
  have htl := hv.tail_le
  have htc := hv.tail_cap
  have hsl := hv.size_le
  simp only [TVec.toVec, trieSize] at hts htl htc hsl
  rw [nodeWidth_eq] at htc hts hsl
  by_cases hinv : t.invalid = true
  · rw [tConjH, if_pos hinv] at hok
    exact Except.noConfusion hok
  · rw [tConjH, if_neg hinv] at hok
    by_cases hroom : t.tail.length < nodeWidth
    · rw [if_pos hroom, Except.ok.injEq, Prod.mk.injEq] at hok
      obtain ⟨-, hveq⟩ := hok
      rw [← hveq]
      rw [nodeWidth_eq] at hroom
      refine ⟨?_, ?_, ?_, ?_, ?_⟩
      · simp only [TVec.toVec, List.length_append, List.length_singleton]
        omega
      · simp only [TVec.toVec, List.length_append, List.length_singleton, nodeWidth_eq]
        omega
      · simp only [TVec.toVec, trieSize, List.length_append, List.length_singleton, nodeWidth_eq]
        omega
      · simp only [TVec.toVec, trieSize, List.length_append, List.length_singleton, nodeWidth_eq]
        omega
      · intro h0
        simp [TVec.toVec] at h0
    · have hlen32 : t.tail.length = 32 := by
        rw [nodeWidth_eq] at hroom
        omega
      rw [if_neg hroom] at hok
      by_cases hdeep : isDeepEnoughToAppend t.depth t.count = true
      · have hcd : t.count / 32 ≤ 2 ^ t.depth := (isDeepEnoughToAppend_iff _ _).mp hdeep
        simp only [if_pos hdeep, Except.ok.injEq, Prod.mk.injEq] at hok
        obtain ⟨-, hveq⟩ := hok
        rw [← hveq]
        refine ⟨?_, ?_, ?_, ?_, ?_⟩
        · simp only [TVec.toVec, List.length_singleton]
          omega
        · simp only [TVec.toVec, List.length_singleton, nodeWidth_eq]
          omega
        · simp only [TVec.toVec, trieSize, List.length_singleton, nodeWidth_eq]
          omega
        · simp only [TVec.toVec, trieSize, List.length_singleton, nodeWidth_eq]
          omega
        · intro h0
          simp [TVec.toVec] at h0
      · simp only [if_neg hdeep, Except.ok.injEq, Prod.mk.injEq] at hok
        obtain ⟨-, hveq⟩ := hok
        rw [← hveq]
        have hp : (2 : Nat) ^ (t.depth + 1) = 2 ^ t.depth * 2 := pow_succ 2 t.depth
        have hone : 1 ≤ 2 ^ t.depth := Nat.one_le_two_pow
        refine ⟨?_, ?_, ?_, ?_, ?_⟩
        · simp only [TVec.toVec, List.length_singleton]
          omega
        · simp only [TVec.toVec, List.length_singleton, nodeWidth_eq]
          omega
        · simp only [TVec.toVec, trieSize, List.length_singleton, nodeWidth_eq]
          omega
        · simp only [TVec.toVec, trieSize, List.length_singleton, nodeWidth_eq]
          omega
        · intro h0
          simp [TVec.toVec] at h0

theorem vecInv_persist {h : Heap} {t : TVec} {h' : Heap} {v : Vec}
    (hok : persistentH h t = .ok (h', v)) (hv : VecInv t.toVec) : VecInv v := by
  by_cases hinv : t.invalid = true
  · rw [persistentH, if_pos hinv] at hok
    exact Except.noConfusion hok
  · simp only [persistentH, if_neg hinv, Except.ok.injEq, Prod.mk.injEq] at hok
    obtain ⟨-, hveq⟩ := hok
    rw [← hveq]
    exact ⟨hv.tail_le, hv.tail_cap, hv.size_mod, hv.size_le, hv.tail_nil⟩

theorem vecInv_newLoop (xs : List Val) : ∀ (h : Heap) (t : TVec), VecInv t.toVec →
    VecInv (newLoop h t xs).2.toVec := by
  induction xs with
  | nil =>
    intro h t hv
    exact hv
  | cons x xs ih =>
    intro h t hv
    rw [newLoop]
    cases hc : tConjH h t x with
    | ok p =>
      obtain ⟨h1, t1⟩ := p
      exact ih h1 t1 (vecInv_tconj hc hv)
    | error e =>
      exact hv

theorem vecInv_new {vals : List Val} {h : Heap} {v : Vec} (hok : NewH vals = .ok (h, v)) :
    VecInv v := by
  have h0 : VecInv (transientH [] emptyVec 0).2.toVec :=
    ⟨by decide, by decide, by decide, by decide, by decide⟩
  have h1 := vecInv_newLoop vals (transientH [] emptyVec 0).1 (transientH [] emptyVec 0).2 h0
  simp only [NewH] at hok
  exact vecInv_persist hok h1

/-- The invariant attached to a reachable state, transient or persistent. -/
def stateInv : RState → Prop
  | .pv _ v => VecInv v
  | .tv _ t => VecInv t.toVec

theorem reachS_inv {s : RState} (hr : ReachS s) : stateInv s := by
  induction hr with
  | new vals h v hok => exact vecInv_new hok
  | conj h v x _ ih => exact vecInv_conj ih h x
  | assoc h v i x h' v' _ hok ih => exact vecInv_assoc hok ih
  | thaw h v n _ ih => exact ih
  | tconj h t x h' t' _ hok ih => exact vecInv_tconj hok ih
  | tassoc h t i x h' t' _ hok ih => exact vecInv_tassoc hok ih
  | persist h t h' v _ hok ih => exact vecInv_persist hok ih

/-- C9: every vector reachable through the public interface — built by `New`
and closed under `Conj`, `Assoc`, `Transient()` followed by transient
operations and `Persistent()` — satisfies the representation invariant:
`count - len(tail)` (the portion addressed through the trie) is a multiple
of `W = 32` or zero, never exceeds `W^(depth+1)`, and the tail is empty
only when the vector itself is empty; preservation by every operation is
exactly closure under the reachability relation. -/
theorem c9_representation_invariant {h : Heap} {v : Vec} (hr : Reach h v) :
    (v.count - v.tail.length) % nodeWidth = 0 ∧
    v.count - v.tail.length ≤ nodeWidth ^ (v.depth + 1) ∧
    (v.tail = [] → v.count = 0) := by
  have hv : VecInv v := reachS_inv hr
  refine ⟨hv.size_mod, ?_, hv.tail_nil⟩
  calc v.count - v.tail.length = trieSize v := rfl
    _ ≤ nodeWidth * 2 ^ v.depth := hv.size_le
    _ ≤ nodeWidth * nodeWidth ^ v.depth :=
        Nat.mul_le_mul (le_refl _) (Nat.pow_le_pow_left (by rw [nodeWidth_eq]; omega) _)
    _ = nodeWidth ^ (v.depth + 1) := (pow_succ' nodeWidth v.depth).symm

/-- C9 witness: the invariant at the concrete reachable vector `New(5, 7)`. -/
theorem c9_witness :
    ((runNew [5, 7]).2.count - (runNew [5, 7]).2.tail.length) % nodeWidth = 0 ∧
    (runNew [5, 7]).2.count - (runNew [5, 7]).2.tail.length ≤
      nodeWidth ^ ((runNew [5, 7]).2.depth + 1) ∧
    ((runNew [5, 7]).2.tail = [] → (runNew [5, 7]).2.count = 0) :=
  c9_representation_invariant
    (ReachS.new [5, 7] (runNew [5, 7]).1 (runNew [5, 7]).2 (by rfl))

end PVec

namespace PVec

/-- A node with its ownership tag erased: reads never depend on tags. -/
def stripId (nd : GNode) : GNode := { id := none, nodes := nd.nodes, values := nd.values }

/-- Two heaps of the same size whose nodes agree up to ownership tags. -/
def heapSim (h1 h2 : Heap) : Prop :=
  h1.length = h2.length ∧ ∀ a, (hget h1 a).map stripId = (hget h2 a).map stripId

theorem hget_of_lt {h : Heap} {a : Nat} (ha : a < h.length) : ∃ nd, hget h a = some nd :=
  ⟨h.get ⟨a, ha⟩, List.get?_eq_get ha⟩

theorem heapSim_get {h1 h2 : Heap} (hs : heapSim h1 h2) (a : Nat) :
    (hget h1 a = none ∧ hget h2 a = none) ∨
    ∃ nd1 nd2, hget h1 a = some nd1 ∧ hget h2 a = some nd2 ∧
      nd1.nodes = nd2.nodes ∧ nd1.values = nd2.values := by
  have hm := hs.2 a
  cases hg1 : hget h1 a with
  | none =>
    cases hg2 : hget h2 a with
    | none => exact .inl ⟨rfl, rfl⟩
    | some nd2 =>
      rw [hg1, hg2] at hm
      cases hm
  | some nd1 =>
    cases hg2 : hget h2 a with
    | none =>
      rw [hg1, hg2] at hm
      cases hm
    | some nd2 =>
      rw [hg1, hg2] at hm
      injection hm with hm
      have hnodes : (stripId nd1).nodes = (stripId nd2).nodes := congrArg GNode.nodes hm
      have hvals : (stripId nd1).values = (stripId nd2).values := congrArg GNode.values hm
      exact .inr ⟨nd1, nd2, rfl, rfl, hnodes, hvals⟩

theorem heapSim_refl (h : Heap) : heapSim h h := ⟨rfl, fun _ => rfl⟩

theorem hget_ge {h : Heap} {a : Nat} (ha : h.length ≤ a) : hget h a = none :=
  List.get?_eq_none.mpr ha

theorem heapSim_append {h1 h2 : Heap} {n1 n2 : GNode} (hs : heapSim h1 h2)
    (hn : stripId n1 = stripId n2) : heapSim (h1 ++ [n1]) (h2 ++ [n2]) := by
  refine ⟨by simp [hs.1], ?_⟩
  intro a
  rcases Nat.lt_trichotomy a h1.length with ha | ha | ha
  · rw [hget_append ha, hget_append (hs.1 ▸ ha)]
    exact hs.2 a
  · subst ha
    rw [hget_append_self, hs.1, hget_append_self]
    simpa using hn
  · rw [hget_ge (by simp; omega), hget_ge (by simp [← hs.1]; omega)]

theorem heapSim_set {h1 h2 : Heap} {a : Nat} {n1 n2 : GNode} (hs : heapSim h1 h2)
    (hn : stripId n1 = stripId n2) : heapSim (hset h1 a n1) (hset h2 a n2) := by
  refine ⟨by simp [hset, hs.1], ?_⟩
  intro b
  by_cases hab : a = b
  · subst hab
    by_cases ha : a < h1.length
    · rw [hget_hset_self n1 ha, hget_hset_self n2 (hs.1 ▸ ha)]
      simpa using hn
    · rw [hset, List.set_eq_of_length_le (by omega), hset,
        List.set_eq_of_length_le (by rw [← hs.1]; omega)]
      exact hs.2 a
  · rw [hget_hset_ne n1 hab, hget_hset_ne n2 hab]
    exact hs.2 b

theorem all_congr_fun {l : List (Option Nat)} {f g : Option Nat → Bool}
    (h : ∀ c ∈ l, f c = g c) : l.all f = l.all g := by
  induction l with
  | nil => rfl
  | cons x xs ih =>
    simp only [List.all_cons, h x (by simp), ih (fun c hc => h c (by simp [hc]))]

theorem walkTrie_sim {h1 h2 : Heap} (hs : heapSim h1 h2) :
    ∀ (d : Nat) (c : Option Nat) (j : Nat), walkTrie h1 c d j = walkTrie h2 c d j := by
  intro d
  induction d with
  | zero =>
    intro c j
    cases c with
    | none => rfl
    | some a =>
      show (hget h1 a).map GNode.values = (hget h2 a).map GNode.values
      rcases heapSim_get hs a with ⟨hg1, hg2⟩ | ⟨nd1, nd2, hg1, hg2, hn, hv⟩
      · rw [hg1, hg2]
      · rw [hg1, hg2]
        simp [hv]
  | succ d ih =>
    intro c j
    cases c with
    | none => rfl
    | some a =>
      rcases heapSim_get hs a with ⟨hg1, hg2⟩ | ⟨nd1, nd2, hg1, hg2, hn, hv⟩
      · simp only [walkTrie, hg1, hg2]
      · simp only [walkTrie, hg1, hg2, hn]
        exact ih _ j

theorem nodeWF_sim {h1 h2 : Heap} (hs : heapSim h1 h2) :
    ∀ (d : Nat) (c : Option Nat), nodeWF h1 d c = nodeWF h2 d c := by
  intro d
  induction d with
  | zero =>
    intro c
    cases c with
    | none => rfl
    | some a =>
      rcases heapSim_get hs a with ⟨hg1, hg2⟩ | ⟨nd1, nd2, hg1, hg2, hn, hv⟩
      · simp only [nodeWF, hg1, hg2]
      · simp only [nodeWF, hg1, hg2, hn, hv]
  | succ d ih =>
    intro c
    cases c with
    | none => rfl
    | some a =>
      rcases heapSim_get hs a with ⟨hg1, hg2⟩ | ⟨nd1, nd2, hg1, hg2, hn, hv⟩
      · simp only [nodeWF, hg1, hg2]
      · simp only [nodeWF, hg1, hg2, hn, hv]
        congr 1
        apply all_congr_fun
        intro c' _
        exact ih c'

theorem addrList_sim {h1 h2 : Heap} (hs : heapSim h1 h2) :
    ∀ (d : Nat) (c : Option Nat), addrList h1 d c = addrList h2 d c := by
  intro d
  induction d with
  | zero =>
    intro c
    cases c with
    | none => rfl
    | some a => rfl
  | succ d ih =>
    intro c
    cases c with
    | none => rfl
    | some a =>
      rcases heapSim_get hs a with ⟨hg1, hg2⟩ | ⟨nd1, nd2, hg1, hg2, hn, hv⟩
      · simp only [addrList, hg1, hg2]
      · simp only [addrList, hg1, hg2, hn]
        congr 1
        apply flatMap_congr
        intro c' _
        exact ih c'

theorem VecRep_sim {h1 h2 : Heap} {v : Vec} {l : List Val} (hs : heapSim h1 h2)
    (rep : VecRep h2 v l) : VecRep h1 v l := by
  refine ⟨rep.count_eq, rep.tail_le, rep.tail_cap, rep.tail_eq, rep.size_mod, rep.size_le,
    rep.tail_nil, ?_, ?_, ?_⟩
  · rw [nodeWF_sim hs]
    exact rep.wf
  · rw [addrList_sim hs]
    exact rep.nodup
  · intro j hj
    simp only [readTrie, walkTrie_sim hs]
    exact rep.reads j hj

/-- Every node in the region hanging from `(level, c)` carries the
transient's tag: the clone-on-foreign-tag branches are then dead. -/
def owned (h : Heap) (myid : OwnId) (level : Nat) (c : Option Nat) : Prop :=
  ∀ b ∈ addrList h level c, ∀ nd, hget h b = some nd → nd.id = myid

end PVec

namespace PVec

theorem heapSim_get_some {h1 h2 : Heap} (hs : heapSim h1 h2) {a : Nat} {nd1 : GNode}
    (hg : hget h1 a = some nd1) :
    ∃ nd2, hget h2 a = some nd2 ∧ nd1.nodes = nd2.nodes ∧ nd1.values = nd2.values := by
  rcases heapSim_get hs a with ⟨hn1, _⟩ | ⟨m1, m2, hm1, hm2, hn, hv⟩
  · rw [hg] at hn1
    cases hn1
  · rw [hg] at hm1
    injection hm1 with hm1
    subst hm1
    exact ⟨m2, hm2, hn, hv⟩

theorem tConjPlace_zero (h : Heap) (myid : OwnId) (c : Option Nat) (idx : Nat) (tl : List Val) :
    tConjPlace h myid c 0 idx tl = (h ++ [newLeaf myid tl], some h.length) := rfl

theorem tConjPlace_succ_some {h : Heap} {myid : OwnId} {a : Nat} {nd : GNode} (L idx : Nat)
    (tl : List Val) (hg : hget h a = some nd) (hid : nd.id = myid) :
    tConjPlace h myid (some a) (L+1) idx tl =
      ((if nd.nodes.getD (indexAt (L+1) idx) none =
            (tConjPlace h myid (nd.nodes.getD (indexAt (L+1) idx) none) L idx tl).2 then
          (tConjPlace h myid (nd.nodes.getD (indexAt (L+1) idx) none) L idx tl).1
        else
          match hget (tConjPlace h myid (nd.nodes.getD (indexAt (L+1) idx) none) L idx tl).1 a with
          | some nd2 =>
            hset (tConjPlace h myid (nd.nodes.getD (indexAt (L+1) idx) none) L idx tl).1 a { nd2 with nodes := nd2.nodes.set (indexAt (L+1) idx) (tConjPlace h myid (nd.nodes.getD (indexAt (L+1) idx) none) L idx tl).2 }
          | none => (tConjPlace h myid (nd.nodes.getD (indexAt (L+1) idx) none) L idx tl).1),
       some a) := by
  conv_lhs => rw [tConjPlace]
  simp only [hg, if_pos hid]

theorem tConjPlace_succ_none (h : Heap) (myid : OwnId) (L idx : Nat) (tl : List Val) :
    tConjPlace h myid none (L+1) idx tl =
      ((match hget (tConjPlace (h ++ [newNode myid]) myid none L idx tl).1 h.length with
        | some nd2 =>
          hset (tConjPlace (h ++ [newNode myid]) myid none L idx tl).1 h.length { nd2 with nodes := nd2.nodes.set (indexAt (L+1) idx) (tConjPlace (h ++ [newNode myid]) myid none L idx tl).2 }
        | none => (tConjPlace (h ++ [newNode myid]) myid none L idx tl).1),
       some h.length) := by
  conv_lhs => rw [tConjPlace]
  simp only [halloc, hget_append_self, newNode, getD_replicate_none, eq_self_iff_true, if_true]
  have hnone : ∀ L' idx', (tConjPlace (h ++ [{ id := myid, nodes := List.replicate nodeWidth none, values := [] }]) myid none L' idx' tl).2 ≠ none := by
    intro L' idx'
    match L' with
    | 0 => simp [tConjPlace_zero]
    | l+1 =>
      rw [tConjPlace]
      simp
  rw [if_neg (fun hEq => hnone L idx hEq.symm)]

/-- On a fully owned, well-formed subtree the transient push-down walk
computes the same pointer as the persistent one, produces a heap that is
identical up to ownership tags, preserves the tag of every old node, and
tags every fresh node with the transient's id. -/
theorem tConjPlace_sim (tl : List Val) (myid : OwnId) :
    ∀ (level : Nat) (h1 h2 : Heap) (c : Option Nat) (idx : Nat),
      heapSim h1 h2 →
      nodeWF h1 level c = true →
      owned h1 myid level c →
      (tConjPlace h1 myid c level idx tl).2 = (conjPlace h2 c level idx tl).2 ∧
      heapSim (tConjPlace h1 myid c level idx tl).1 (conjPlace h2 c level idx tl).1 ∧
      h1.length ≤ (tConjPlace h1 myid c level idx tl).1.length ∧
      (∀ b nd nd', hget h1 b = some nd →
        hget (tConjPlace h1 myid c level idx tl).1 b = some nd' → nd'.id = nd.id) ∧
      (∀ b nd, h1.length ≤ b →
        hget (tConjPlace h1 myid c level idx tl).1 b = some nd → nd.id = myid) := by
  intro level
  induction level with
  | zero =>
    intro h1 h2 c idx hs hwf hown
    rw [tConjPlace_zero, conjPlace_zero]
    refine ⟨by simp [hs.1], heapSim_append hs rfl, by simp, ?_, ?_⟩
    · intro b nd nd' hb hb'
      rw [hget_append (hget_lt hb), hb] at hb'
      injection hb' with hb'
      rw [hb']
    · intro b nd hble hb
      rcases Nat.eq_or_lt_of_le hble with hbe | hblt
      · rw [← hbe, hget_append_self] at hb
        injection hb with hb
        rw [← hb]
        rfl
      · rw [hget_ge (by simp; omega)] at hb
        cases hb
  | succ L ih =>
    intro h1 h2 c idx hs hwf hown
    cases c with
    | none =>
      rw [tConjPlace_succ_none, conjPlace_succ_none]
      have hsim1 : heapSim (h1 ++ [newNode myid]) (h2 ++ [newNode none]) :=
        heapSim_append hs rfl
      have hown1 : owned (h1 ++ [newNode myid]) myid L none := by
        intro b hb
        rw [addrList_none] at hb
        cases hb
      obtain ⟨hr2, hrsim, hrlen, hrid, hrfresh⟩ :=
        ih (h1 ++ [newNode myid]) (h2 ++ [newNode none]) none idx hsim1 (nodeWF_none _ _) hown1
      have hlen1 : (h1 ++ [newNode myid]).length = h1.length + 1 := by simp
      have hgT : ∃ ndT, hget (tConjPlace (h1 ++ [newNode myid]) myid none L idx tl).1 h1.length = some ndT :=
        hget_of_lt (by omega)
      obtain ⟨ndT, hgT⟩ := hgT
      obtain ⟨ndP, hgP, hnodes, hvals⟩ := heapSim_get_some hrsim hgT
      have hidT : ndT.id = myid :=
        hrid h1.length (newNode myid) ndT (hget_append_self h1 (newNode myid)) hgT
      rw [hgT]
      rw [show h2.length = h1.length from hs.1.symm, hgP]
      refine ⟨by rw [hs.1], ?_, ?_, ?_, ?_⟩
      · refine heapSim_set hrsim ?_
        show GNode.mk none (ndT.nodes.set (indexAt (L+1) idx) (tConjPlace (h1 ++ [newNode myid]) myid none L idx tl).2) ndT.values =
          GNode.mk none (ndP.nodes.set (indexAt (L+1) idx) (conjPlace (h2 ++ [newNode none]) none L idx tl).2) ndP.values
        rw [hnodes, hvals, hr2]
      · rw [hset_length]
        omega
      · intro b nd nd' hb hb'
        have hbne : h1.length ≠ b := fun hEq => by
          rw [← hEq, hget_ge (le_refl _)] at hb
          cases hb
        rw [hget_hset_ne _ hbne] at hb'
        exact hrid b nd nd' (by rw [hget_append (hget_lt hb)]; exact hb) hb'
      · intro b nd hble hb
        rcases Nat.eq_or_lt_of_le hble with hbe | hblt
        · rw [← hbe, hget_hset_self _ (by omega)] at hb
          injection hb with hb
          rw [← hb]
          exact hidT
        · rw [hget_hset_ne _ (by omega)] at hb
          exact hrfresh b nd (by omega) hb
    | some a =>
      cases hg1 : hget h1 a with
      | none =>
        rw [nodeWF, hg1] at hwf
        cases hwf
      | some nd =>
        have hid : nd.id = myid := hown a (self_mem_addrList h1 (L+1) a) nd hg1
        obtain ⟨ndP, hg2, hnodesP, hvalsP⟩ := heapSim_get_some hs hg1
        have hwfs := hwf
        simp only [nodeWF, hg1, Bool.and_eq_true, List.all_eq_true, beq_iff_eq,
          List.isEmpty_iff] at hwfs
        obtain ⟨⟨hvemp, hlen32⟩, hch⟩ := hwfs
        have hslt : indexAt (L+1) idx < nd.nodes.length := by
          rw [hlen32]
          exact indexAt_lt _ _
        have hchild_wf : nodeWF h1 L (nd.nodes.getD (indexAt (L+1) idx) none) = true :=
          hch _ (mem_getD hslt)
        have hchild_own : owned h1 myid L (nd.nodes.getD (indexAt (L+1) idx) none) := by
          intro b hb ndb hgb
          exact hown b (mem_addrList_child hg1 hb) ndb hgb
        obtain ⟨hr2, hrsim, hrlen, hrid, hrfresh⟩ :=
          ih h1 h2 (nd.nodes.getD (indexAt (L+1) idx) none) idx hs hchild_wf hchild_own
        rw [tConjPlace_succ_some L idx tl hg1 hid, conjPlace_succ_some L idx tl hg2, ← hnodesP]
        by_cases hceq : nd.nodes.getD (indexAt (L+1) idx) none =
            (tConjPlace h1 myid (nd.nodes.getD (indexAt (L+1) idx) none) L idx tl).2
        · rw [if_pos hceq, if_pos (by rw [← hr2]; exact hceq)]
          exact ⟨rfl, hrsim, hrlen, hrid, hrfresh⟩
        · rw [if_neg hceq, if_neg (by rw [← hr2]; exact hceq)]
          have halt : a < h1.length := hget_lt hg1
          obtain ⟨ndT2, hgT2⟩ :
              ∃ ndT2, hget (tConjPlace h1 myid (nd.nodes.getD (indexAt (L+1) idx) none) L idx tl).1 a = some ndT2 :=
            hget_of_lt (by omega)
          obtain ⟨ndP2, hgP2, hnodes2, hvals2⟩ := heapSim_get_some hrsim hgT2
          rw [hgT2, hgP2]
          refine ⟨rfl, ?_, ?_, ?_, ?_⟩
          · refine heapSim_set hrsim ?_
            show GNode.mk none (ndT2.nodes.set (indexAt (L+1) idx) (tConjPlace h1 myid (nd.nodes.getD (indexAt (L+1) idx) none) L idx tl).2) ndT2.values =
              GNode.mk none (ndP2.nodes.set (indexAt (L+1) idx) (conjPlace h2 (nd.nodes.getD (indexAt (L+1) idx) none) L idx tl).2) ndP2.values
            rw [hnodes2, hvals2, hr2]
          · rw [hset_length]
            omega
          · intro b nd0 nd' hb hb'
            by_cases hab : a = b
            · rw [← hab] at hb hb'
              rw [hget_hset_self _ (by omega)] at hb'
              injection hb' with hb'
              rw [← hb']
              show ndT2.id = nd0.id
              rw [hg1] at hb
              injection hb with hb
              rw [← hb]
              exact hrid a nd ndT2 hg1 hgT2
            · rw [hget_hset_ne _ hab] at hb'
              exact hrid b nd0 nd' hb hb'
          · intro b nd0 hble hb
            have hab : a ≠ b := by omega
            rw [hget_hset_ne _ hab] at hb
            exact hrfresh b nd0 hble hb

end PVec

namespace PVec

/-- Every node of the heap carries the transient's tag — the state of the
world inside `New`, which starts from the empty heap. -/
def allOwned (h : Heap) (myid : OwnId) : Prop :=
  ∀ b nd, hget h b = some nd → nd.id = myid

theorem tConjH_sim {h1 h2 : Heap} {t : TVec} {l : List Val} (x : Val)
    (hv : t.invalid = false) (hs : heapSim h1 h2) (hall : allOwned h1 t.id)
    (rep : VecRep h2 t.toVec l) :
    ∃ h' t', tConjH h1 t x = .ok (h', t') ∧ t'.invalid = false ∧ t'.id = t.id ∧
      t'.toVec = (conjH h2 t.toVec x).2 ∧ heapSim h' (conjH h2 t.toVec x).1 ∧
      allOwned h' t.id := by
  have hinv' : ¬(t.invalid = true) := by simp [hv]
  by_cases hroom : t.tail.length < nodeWidth
  · have hT : tConjH h1 t x = .ok (h1, { t with invalid := false, count := t.count + 1, tail := t.tail ++ [x] }) := by
      simp only [tConjH, if_neg hinv', if_pos hroom]
    have hP : conjH h2 t.toVec x = (h2, { count := t.count + 1, depth := t.depth, tail := t.tail ++ [x], root := t.root }) := by
      simp only [conjH, TVec.toVec, if_pos hroom]
    refine ⟨_, _, hT, rfl, rfl, ?_, ?_, ?_⟩
    · rw [hP]
      rfl
    · rw [hP]
      exact hs
    · exact hall
  · have hwf1 : nodeWF h1 t.depth t.root = true := by
      rw [nodeWF_sim hs]
      exact rep.wf
    have hown1 : owned h1 t.id t.depth t.root := fun b _ nd hg => hall b nd hg
    by_cases hdeep : isDeepEnoughToAppend t.depth t.count = true
    · have hT : tConjH h1 t x =
          .ok ((tConjPlace h1 t.id t.root t.depth (t.count - 1) t.tail).1, { t with invalid := false, count := t.count + 1, depth := t.depth, tail := [x], root := (tConjPlace h1 t.id t.root t.depth (t.count - 1) t.tail).2 }) := by
        simp only [tConjH, if_neg hinv', if_neg hroom, if_pos hdeep]
      have hP : conjH h2 t.toVec x =
          ((conjPlace h2 t.root t.depth (t.count - 1) t.tail).1, { count := t.count + 1, depth := t.depth, tail := [x], root := (conjPlace h2 t.root t.depth (t.count - 1) t.tail).2 }) := by
        simp only [conjH, TVec.toVec, if_neg hroom, if_pos hdeep]
      obtain ⟨hr2, hrsim, hrlen, hrid, hrfresh⟩ :=
        tConjPlace_sim t.tail t.id t.depth h1 h2 t.root (t.count - 1) hs hwf1 hown1
      refine ⟨_, _, hT, rfl, rfl, ?_, ?_, ?_⟩
      · rw [hP]
        simp only [TVec.toVec]
        rw [hr2]
      · rw [hP]
        exact hrsim
      · intro b nd hg
        by_cases hb : b < h1.length
        · obtain ⟨nd1, hg1⟩ := hget_of_lt hb
          rw [hrid b nd1 nd hg1 hg]
          exact hall b nd1 hg1
        · exact hrfresh b nd (by omega) hg
    · have hT : tConjH h1 t x =
          .ok ((tConjPlace (h1 ++ [GNode.mk t.id ((List.replicate nodeWidth none).set 0 t.root) []]) t.id (some h1.length) (t.depth + 1) (t.count - 1) t.tail).1, { t with invalid := false, count := t.count + 1, depth := t.depth + 1, tail := [x], root := (tConjPlace (h1 ++ [GNode.mk t.id ((List.replicate nodeWidth none).set 0 t.root) []]) t.id (some h1.length) (t.depth + 1) (t.count - 1) t.tail).2 }) := by
        simp only [tConjH, if_neg hinv', if_neg hroom, if_neg hdeep, halloc, hget_append_self]
        rw [show ({ newNode t.id with nodes := (newNode t.id).nodes.set 0 t.root } : GNode) =
          GNode.mk t.id ((List.replicate nodeWidth none).set 0 t.root) [] from rfl]
        rw [hset_append_self]
      have hP : conjH h2 t.toVec x =
          ((conjPlace (h2 ++ [GNode.mk none ((List.replicate nodeWidth none).set 0 t.root) []]) (some h2.length) (t.depth + 1) (t.count - 1) t.tail).1, { count := t.count + 1, depth := t.depth + 1, tail := [x], root := (conjPlace (h2 ++ [GNode.mk none ((List.replicate nodeWidth none).set 0 t.root) []]) (some h2.length) (t.depth + 1) (t.count - 1) t.tail).2 }) := by
        simp only [conjH, TVec.toVec, if_neg hroom, if_neg hdeep, halloc, hget_append_self]
        rw [show ({ newNode none with nodes := (newNode none).nodes.set 0 t.root } : GNode) =
          GNode.mk none ((List.replicate nodeWidth none).set 0 t.root) [] from rfl]
        rw [hset_append_self]
      rw [show h2.length = h1.length from hs.1.symm] at hP
      have hsim1 : heapSim (h1 ++ [GNode.mk t.id ((List.replicate nodeWidth none).set 0 t.root) []])
          (h2 ++ [GNode.mk none ((List.replicate nodeWidth none).set 0 t.root) []]) :=
        heapSim_append hs rfl
      have hagree2 : ∀ b ∈ addrList h2 t.depth t.root,
          hget (h2 ++ [GNode.mk none ((List.replicate nodeWidth none).set 0 t.root) []]) b = hget h2 b :=
        fun b hb => hget_append (addrList_lt rep.wf b hb)
      have hwfB2 : nodeWF (h2 ++ [GNode.mk none ((List.replicate nodeWidth none).set 0 t.root) []]) (t.depth + 1) (some h2.length) = true := by
        simp only [nodeWF, hget_append_self, Bool.and_eq_true, List.all_eq_true, beq_iff_eq,
          List.isEmpty_iff]
        refine ⟨⟨trivial, by simp⟩, ?_⟩
        intro c' hc'
        rcases List.mem_or_eq_of_mem_set hc' with hold | rfl
        · rw [List.eq_of_mem_replicate hold]
          exact nodeWF_none _ _
        · exact (region_congr rep.wf hagree2).2.1
      have hwfB1 : nodeWF (h1 ++ [GNode.mk t.id ((List.replicate nodeWidth none).set 0 t.root) []]) (t.depth + 1) (some h1.length) = true := by
        rw [nodeWF_sim hsim1, show h1.length = h2.length from hs.1]
        exact hwfB2
      have hall1 : allOwned (h1 ++ [GNode.mk t.id ((List.replicate nodeWidth none).set 0 t.root) []]) t.id := by
        intro b nd hg
        rcases Nat.lt_trichotomy b h1.length with hb | hb | hb
        · rw [hget_append hb] at hg
          exact hall b nd hg
        · rw [hb, hget_append_self] at hg
          injection hg with hg
          rw [← hg]
        · rw [hget_ge (by simp; omega)] at hg
          cases hg
      have hown2 : owned (h1 ++ [GNode.mk t.id ((List.replicate nodeWidth none).set 0 t.root) []]) t.id (t.depth + 1) (some h1.length) :=
        fun b _ nd hg => hall1 b nd hg
      obtain ⟨hr2, hrsim, hrlen, hrid, hrfresh⟩ :=
        tConjPlace_sim t.tail t.id (t.depth + 1)
          (h1 ++ [GNode.mk t.id ((List.replicate nodeWidth none).set 0 t.root) []])
          (h2 ++ [GNode.mk none ((List.replicate nodeWidth none).set 0 t.root) []])
          (some h1.length) (t.count - 1) hsim1 hwfB1 hown2
      refine ⟨_, _, hT, rfl, rfl, ?_, ?_, ?_⟩
      · rw [hP]
        simp only [TVec.toVec]
        rw [hr2]
      · rw [hP]
        exact hrsim
      · intro b nd hg
        by_cases hb : b < (h1 ++ [GNode.mk t.id ((List.replicate nodeWidth none).set 0 t.root) []]).length
        · obtain ⟨nd1, hg1⟩ := hget_of_lt hb
          rw [hrid b nd1 nd hg1 hg]
          exact hall1 b nd1 hg1
        · exact hrfresh b nd (by omega) hg

end PVec

namespace PVec

theorem conjFold_rep (xs : List Val) : ∀ (h : Heap) (v : Vec) (l : List Val), VecRep h v l →
    VecRep (conjFold (h, v) xs).1 (conjFold (h, v) xs).2 (l ++ xs) := by
  induction xs with
  | nil =>
    intro h v l rep
    simpa using rep
  | cons x xs ih =>
    intro h v l rep
    have hstep := ih (conjH h v x).1 (conjH h v x).2 (l ++ [x]) (conj_rep rep x).1
    have hfold : conjFold (h, v) (x :: xs) =
        conjFold ((conjH h v x).1, (conjH h v x).2) xs := rfl
    rw [hfold]
    simpa using hstep

theorem emptyRep : VecRep [] emptyVec [] := by
  refine ⟨rfl, by decide, by decide, rfl, by decide, by decide, fun _ => rfl, rfl,
    List.nodup_nil, ?_⟩
  intro j hj
  simp [trieSize, emptyVec] at hj

theorem newLoop_sim (xs : List Val) : ∀ (h1 : Heap) (t : TVec) (h2 : Heap) (l : List Val),
    t.invalid = false → heapSim h1 h2 → allOwned h1 t.id → VecRep h2 t.toVec l →
    (newLoop h1 t xs).2.invalid = false ∧
    (newLoop h1 t xs).2.toVec = (conjFold (h2, t.toVec) xs).2 ∧
    heapSim (newLoop h1 t xs).1 (conjFold (h2, t.toVec) xs).1 := by
  induction xs with
  | nil =>
    intro h1 t h2 l hv hs hall rep
    exact ⟨hv, rfl, hs⟩
  | cons x xs ih =>
    intro h1 t h2 l hv hs hall rep
    obtain ⟨h', t', hok, hv', hid', htv', hs', hall'⟩ := tConjH_sim x hv hs hall rep
    have hallx : allOwned h' t'.id := by
      rw [hid']
      exact hall'
    have repx : VecRep (conjH h2 t.toVec x).1 t'.toVec (l ++ [x]) := by
      rw [htv']
      exact (conj_rep rep x).1
    have hrec := ih h' t' (conjH h2 t.toVec x).1 (l ++ [x]) hv' hs' hallx repx
    rw [htv'] at hrec
    refine ⟨?_, ?_, ?_⟩
    · simp only [newLoop, hok]
      exact hrec.1
    · simp only [newLoop, hok]
      exact hrec.2.1
    · simp only [newLoop, hok]
      exact hrec.2.2

theorem persist_rep {h : Heap} {t : TVec} {l : List Val} (hv : t.invalid = false)
    (rep : VecRep h t.toVec l) :
    ∃ h' v, persistentH h t = .ok (h', v) ∧ VecRep h' v l ∧ v.count = t.count := by
  have hinv' : ¬(t.invalid = true) := by simp [hv]
  cases hr : t.root with
  | none =>
    refine ⟨h, { count := t.count, depth := t.depth, tail := t.tail, root := none }, ?_, ?_, rfl⟩
    · simp only [persistentH, if_neg hinv', cloneNodeH, hr]
    · rw [show ({ count := t.count, depth := t.depth, tail := t.tail, root := none } : Vec) = t.toVec by simp [TVec.toVec, hr]]
      exact rep
  | some ra =>
    have hwfr : nodeWF h t.depth (some ra) = true := by
      rw [← hr]
      exact rep.wf
    have hra : ra < h.length := wfAddr_lt hwfr
    cases hgr : hget h ra with
    | none =>
      exfalso
      obtain ⟨nd, hg⟩ := hget_of_lt hra
      rw [hgr] at hg
      cases hg
    | some rnd =>
      have hPeq : persistentH h t = .ok (h ++ [GNode.mk none rnd.nodes rnd.values],
          { count := t.count, depth := t.depth, tail := t.tail, root := some h.length }) := by
        simp only [persistentH, if_neg hinv', cloneNodeH, hr, hgr, halloc]
      have hgC : hget (h ++ [GNode.mk none rnd.nodes rnd.values]) h.length =
          some (GNode.mk none rnd.nodes rnd.values) := hget_append_self h _
      refine ⟨_, _, hPeq, ?_, rfl⟩
      cases hd : t.depth with
      | zero =>
        rw [hd] at hwfr
        have hwfr' := hwfr
        simp only [nodeWF, hgr, Bool.and_eq_true, List.isEmpty_iff, beq_iff_eq] at hwfr'
        refine ⟨rep.count_eq, rep.tail_le, rep.tail_cap, rep.tail_eq, rep.size_mod, ?_, rep.tail_nil, ?_, ?_, ?_⟩
        · have := rep.size_le
          rw [show t.toVec.depth = 0 from hd] at this
          exact this
        · simp only [nodeWF, hgC, Bool.and_eq_true, List.isEmpty_iff, beq_iff_eq]
          exact hwfr'
        · exact List.nodup_singleton _
        · intro j hj
          have hread := rep.reads j hj
          rw [show t.toVec.root = some ra from hr, show t.toVec.depth = 0 from hd] at hread
          simp only [readTrie, walkTrie, hgr, Option.map_some] at hread
          simp only [readTrie, walkTrie, hgC, Option.map_some]
          exact hread
      | succ d =>
        rw [hd] at hwfr
        have hwfr' := hwfr
        simp only [nodeWF, hgr, Bool.and_eq_true, List.all_eq_true, beq_iff_eq,
          List.isEmpty_iff] at hwfr'
        obtain ⟨⟨hvemp, hlen32⟩, hch⟩ := hwfr'
        have hagree : ∀ c ∈ rnd.nodes, ∀ b ∈ addrList h d c,
            hget (h ++ [GNode.mk none rnd.nodes rnd.values]) b = hget h b := by
          intro c hc b hb
          exact hget_append (addrList_lt (hch c hc) b hb)
        have hndold : (addrList h (d+1) (some ra)).Nodup := by
          rw [← hd, ← hr]
          exact rep.nodup
        simp only [addrList, hgr, List.nodup_cons] at hndold
        refine ⟨rep.count_eq, rep.tail_le, rep.tail_cap, rep.tail_eq, rep.size_mod, ?_, rep.tail_nil, ?_, ?_, ?_⟩
        · have := rep.size_le
          rw [show t.toVec.depth = d + 1 from hd] at this
          exact this
        · simp only [nodeWF, hgC, Bool.and_eq_true, List.all_eq_true, beq_iff_eq,
            List.isEmpty_iff]
          refine ⟨⟨hvemp, hlen32⟩, ?_⟩
          intro c hc
          rw [(region_congr (hch c hc) (hagree c hc)).2.1]
        · simp only [addrList, hgC, List.nodup_cons]
          constructor
          · intro hmem
            obtain ⟨c, hc, hbc⟩ := List.mem_flatMap.mp hmem
            rw [(region_congr (hch c hc) (hagree c hc)).1] at hbc
            exact absurd (addrList_lt (hch c hc) _ hbc) (by omega)
          · have : rnd.nodes.flatMap (fun c => addrList (h ++ [GNode.mk none rnd.nodes rnd.values]) d c) =
                rnd.nodes.flatMap (fun c => addrList h d c) := by
              apply flatMap_congr
              intro c hc
              exact (region_congr (hch c hc) (hagree c hc)).1
            rw [this]
            exact hndold.2
        · intro j hj
          have hread := rep.reads j hj
          rw [show t.toVec.root = some ra from hr, show t.toVec.depth = d + 1 from hd] at hread
          have hdig : indexAt (d+1) j < rnd.nodes.length := by
            rw [hlen32]
            exact indexAt_lt _ _
          simp only [readTrie, walkTrie, hgr] at hread
          simp only [readTrie, walkTrie, hgC]
          rw [(region_congr (hch _ (mem_getD hdig)) (hagree _ (mem_getD hdig))).2.2 j]
          exact hread

end PVec

namespace PVec

/-- C5: `New(vals...)` — which builds through the transient path — has the
same readable contents as folding the persistent `Conj` over the empty
vector: `New` succeeds, the lengths agree, and every index in
`[0, len(vals))` reads the same value on both sides. -/
theorem c5_new_equiv_conjfold (vals : List Val) :
    ∃ h v, NewH vals = .ok (h, v) ∧
      lenH v = lenH (conjFold ([], emptyVec) vals).2 ∧
      (∀ i : Int, 0 ≤ i → i < (vals.length : Int) →
        nthH h v i = nthH (conjFold ([], emptyVec) vals).1 (conjFold ([], emptyVec) vals).2 i) := by
  have ht0 : (transientH [] emptyVec 0).2.invalid = false := rfl
  have hall0 : allOwned [] (transientH [] emptyVec 0).2.id := by
    intro b nd hg
    rw [hget_ge (by simp)] at hg
    cases hg
  have hrep0 : VecRep [] (transientH [] emptyVec 0).2.toVec [] := emptyRep
  obtain ⟨hvL, htvL, hsL⟩ :=
    newLoop_sim vals [] (transientH [] emptyVec 0).2 [] [] ht0 (heapSim_refl []) hall0 hrep0
  have hrepF : VecRep (conjFold ([], emptyVec) vals).1 (conjFold ([], emptyVec) vals).2 vals := by
    have := conjFold_rep vals [] emptyVec [] emptyRep
    simpa using this
  have hrepT : VecRep (newLoop [] (transientH [] emptyVec 0).2 vals).1
      (newLoop [] (transientH [] emptyVec 0).2 vals).2.toVec vals := by
    rw [htvL]
    exact VecRep_sim hsL hrepF
  obtain ⟨h', v, hok, hrepV, hcnt⟩ := persist_rep hvL hrepT
  refine ⟨h', v, ?_, ?_, ?_⟩
  · exact hok
  · show v.count = (conjFold ([], emptyVec) vals).2.count
    rw [hrepV.count_eq, hrepF.count_eq]
  · intro i h0 hc
    cases hgv : vals.get? i.toNat with
    | none =>
      have := List.get?_eq_none.mp hgv
      omega
    | some y =>
      rw [nth_ok hrepV h0 (by rw [hrepV.count_eq]; exact hc) hgv,
        nth_ok hrepF h0 (by rw [hrepF.count_eq]; exact hc) hgv]

/-- C5 witness: `New(3, 1, 4)` versus three persistent appends onto the
empty vector. -/
theorem c5_witness :
    ∃ h v, NewH [3, 1, 4] = .ok (h, v) ∧
      lenH v = lenH (conjFold ([], emptyVec) [3, 1, 4]).2 ∧
      nthH h v 1 = nthH (conjFold ([], emptyVec) [3, 1, 4]).1 (conjFold ([], emptyVec) [3, 1, 4]).2 1 := by
  obtain ⟨h, v, h1, h2, h3⟩ := c5_new_equiv_conjfold [3, 1, 4]
  exact ⟨h, v, h1, h2, h3 1 (by decide) (by decide)⟩

end PVec

namespace PVec

/-- Reading through a copy of a node (same child and value arrays, placed at
a fresh address) is the same as reading through the original, and keeps
well-formedness and positional uniqueness. -/
theorem redirect_entry {h hD : Heap} {src dst : Nat} {snd dnd : GNode} (L : Nat)
    (hgs' : hget hD src = some snd)
    (hgd : hget hD dst = some dnd)
    (hnodes : dnd.nodes = snd.nodes) (hvals : dnd.values = snd.values)
    (hwf : nodeWF h L (some src) = true)
    (hnd : (addrList h L (some src)).Nodup)
    (hdst : h.length ≤ dst)
    (hagree : ∀ b ∈ addrList h L (some src), hget hD b = hget h b) :
    nodeWF hD L (some dst) = true ∧
    (addrList hD L (some dst)).Nodup ∧
    (∀ j, walkTrie hD (some dst) L j = walkTrie h (some src) L j) := by
  obtain ⟨hreg, hwfD, hwalkD⟩ := region_congr hwf hagree
  refine ⟨?_, ?_, ?_⟩
  · have hstep : nodeWF hD L (some dst) = nodeWF hD L (some src) := by
      cases L with
      | zero => simp only [nodeWF, hgd, hgs', hnodes, hvals]
      | succ M => simp only [nodeWF, hgd, hgs', hnodes, hvals]
    rw [hstep]
    exact hwfD
  · cases L with
    | zero => simp [addrList]
    | succ M =>
      cases hgsh : hget h src with
      | none =>
        rw [nodeWF, hgsh] at hwf
        cases hwf
      | some snd0 =>
        have hgsh' : hget h src = some snd := by
          have := hagree src (self_mem_addrList h (M+1) src)
          rw [hgs'] at this
          exact this.symm
        have hfl : snd.nodes.flatMap (fun c => addrList hD M c) =
            snd.nodes.flatMap (fun c => addrList h M c) := by
          have h1 := hreg
          simp only [addrList, hgs', hgsh'] at h1
          injection h1 with _ h1
        simp only [addrList, hgd, hnodes, List.nodup_cons]
        constructor
        · intro hmem
          rw [hfl] at hmem
          have hin : dst ∈ addrList h (M+1) (some src) := by
            simp only [addrList, hgsh']
            exact List.mem_cons_of_mem _ hmem
          exact absurd (addrList_lt hwf _ hin) (by omega)
        · rw [hfl]
          have hnd' := hnd
          simp only [addrList, hgsh', List.nodup_cons] at hnd'
          exact hnd'.2
  · intro j
    have hstep : walkTrie hD (some dst) L j = walkTrie hD (some src) L j := by
      cases L with
      | zero => simp [walkTrie, hgd, hgs', hvals]
      | succ M => simp only [walkTrie, hgd, hgs', hnodes]
    rw [hstep]
    exact hwalkD j

/-- `tAssocFix` succeeds whenever the walk to the leaf it is asked to fix
goes through: cloning only ever redirects to fresh copies of live nodes. -/
theorem tAssocFix_ok (x : Val) (myid : OwnId) :
    ∀ (l : Nat) (h : Heap) (a : Nat) (idx : Nat),
      nodeWF h l (some a) = true →
      (addrList h l (some a)).Nodup →
      walkTrie h (some a) l idx ≠ none →
      ∃ h', tAssocFix h myid a l idx x = some h' := by
  intro l
  induction l with
  | zero =>
    intro h a idx hwf hnd hwalk
    cases hg : hget h a with
    | none =>
      rw [nodeWF, hg] at hwf
      cases hwf
    | some nd =>
      exact ⟨hset h a { nd with values := nd.values.set (indexAt 0 idx) x },
        by simp only [tAssocFix, hg]⟩
  | succ L ih =>
    intro h a idx hwf hnd hwalk
    cases hg : hget h a with
    | none =>
      rw [nodeWF, hg] at hwf
      cases hwf
    | some nd =>
      have hwalk1 : walkTrie h (nd.nodes.getD (indexAt (L+1) idx) none) L idx ≠ none := by
        simp only [walkTrie, hg] at hwalk
        exact hwalk
      cases hc : nd.nodes.getD (indexAt (L+1) idx) none with
      | none =>
        rw [hc] at hwalk1
        exact absurd (walkTrie_none _ _ _) hwalk1
      | some ca =>
        rw [hc] at hwalk1
        have hwfs := hwf
        simp only [nodeWF, hg, Bool.and_eq_true, List.all_eq_true, beq_iff_eq,
          List.isEmpty_iff] at hwfs
        obtain ⟨⟨hvemp, hlen32⟩, hch⟩ := hwfs
        have hslt : indexAt (L+1) idx < nd.nodes.length := by
          rw [hlen32]
          exact indexAt_lt _ _
        have hcmem : (some ca) ∈ nd.nodes := hc ▸ mem_getD hslt
        have hwfca : nodeWF h L (some ca) = true := hch _ hcmem
        have hca : ca < h.length := wfAddr_lt hwfca
        obtain ⟨cnd, hgc⟩ := hget_of_lt hca
        have hnds := hnd
        simp only [addrList, hg, List.nodup_cons] at hnds
        have hndca : (addrList h L (some ca)).Nodup := by
          have := nodup_flatMap_getD (f := fun c => addrList h L c) hnds.2
            (addrList_none h L) (indexAt (L+1) idx)
          rwa [hc] at this
        have hcaflat : ca ∈ nd.nodes.flatMap (fun c => addrList h L c) :=
          List.mem_flatMap.mpr ⟨some ca, hcmem, self_mem_addrList h L ca⟩
        have hcane : ca ≠ a := fun hEq => hnds.1 (hEq ▸ hcaflat)
        by_cases hid : cnd.id = myid
        · obtain ⟨h', hrec⟩ := ih h ca idx hwfca hndca hwalk1
          refine ⟨h', ?_⟩
          simp only [tAssocFix, hg, hc, hgc, if_pos hid]
          exact hrec
        · have halt : a < h.length := hget_lt hg
          have hane : a ≠ h.length := by omega
          have hgclone : hget (hset (h ++ [GNode.mk myid cnd.nodes cnd.values]) a { nd with nodes := nd.nodes.set (indexAt (L+1) idx) (some h.length) }) h.length = some (GNode.mk myid cnd.nodes cnd.values) := by
            rw [hget_hset_ne _ hane]
            exact hget_append_self h _
          have hagreeCa : ∀ b ∈ addrList h L (some ca),
              hget (hset (h ++ [GNode.mk myid cnd.nodes cnd.values]) a { nd with nodes := nd.nodes.set (indexAt (L+1) idx) (some h.length) }) b = hget h b := by
            intro b hb
            have hblt := addrList_lt hwfca b hb
            have hbflat : b ∈ nd.nodes.flatMap (fun c => addrList h L c) :=
              List.mem_flatMap.mpr ⟨some ca, hcmem, hb⟩
            have hbna : a ≠ b := fun hEq => hnds.1 (hEq ▸ hbflat)
            rw [hget_hset_ne _ hbna, hget_append hblt]
          have hgca' : hget (hset (h ++ [GNode.mk myid cnd.nodes cnd.values]) a { nd with nodes := nd.nodes.set (indexAt (L+1) idx) (some h.length) }) ca = some cnd := by
            rw [hget_hset_ne _ (fun hEq => hcane hEq.symm), hget_append hca]
            exact hgc
          obtain ⟨hwfD, hndD, hwalkD⟩ :=
            redirect_entry L hgca' hgclone rfl rfl hwfca hndca (le_refl _) hagreeCa
          obtain ⟨h', hrec⟩ := ih
            (hset (h ++ [GNode.mk myid cnd.nodes cnd.values]) a { nd with nodes := nd.nodes.set (indexAt (L+1) idx) (some h.length) })
            h.length idx hwfD hndD (by rw [hwalkD idx]; exact hwalk1)
          refine ⟨h', ?_⟩
          simp only [tAssocFix, hg, hc, hgc, if_neg hid, halloc]
          exact hrec

end PVec

namespace PVec

/-- C10: read operations on a valid transient are pure — the embeddings of
`Len`, `Nth` and `Peek` return values only and touch no state, mirroring the
write-free Go methods, so repeated reads trivially return equal results —
and they do not consume the transient: on a valid, well-represented
transient every in-range read succeeds, and a subsequent `Conj`, `Assoc` or
`Persistent` invoked on the very same value `t` still succeeds. -/
theorem c10_transient_reads_frame {h : Heap} {t : TVec} {l : List Val}
    (hv : t.invalid = false) (rep : VecRep h t.toVec l) :
    tLenH t = .ok t.count ∧
    (∀ i : Int, 0 ≤ i → i < (t.count : Int) → ∃ y, tNthH h t i = .ok y) ∧
    (0 < t.count → ∃ y, tPeekH h t = .ok y) ∧
    (∀ x, ∃ h' t', tConjH h t x = .ok (h', t')) ∧
    (∀ (i : Int) (x : Val), 0 ≤ i → i < (t.count : Int) →
      ∃ h' t', tAssocH h t i x = .ok (h', t')) ∧
    (∃ h' v', persistentH h t = .ok (h', v')) := by
  have hinv' : ¬(t.invalid = true) := by simp [hv]
  have hcnt : t.count = l.length := rep.count_eq
  have hnth : ∀ i : Int, 0 ≤ i → i < (t.count : Int) → ∃ y, tNthH h t i = .ok y := by
    intro i h0 hc
    cases hgv : l.get? i.toNat with
    | none =>
      have := List.get?_eq_none.mp hgv
      omega
    | some y =>
      refine ⟨y, ?_⟩
      have := nth_ok rep h0 (by rw [show t.toVec.count = t.count from rfl]; exact hc) hgv
      simp only [tNthH, if_neg hinv']
      exact this
  refine ⟨?_, hnth, ?_, ?_, ?_, ?_⟩
  · simp [tLenH, hv]
  · intro hpos
    exact hnth ((t.count : Int) - 1) (by omega) (by omega)
  · intro x
    cases hres : tConjH h t x with
    | ok p => exact ⟨p.1, p.2, rfl⟩
    | error e =>
      exfalso
      simp only [tConjH, if_neg hinv'] at hres
      split at hres
      · exact Except.noConfusion hres
      · exact Except.noConfusion hres
  · intro i x h0 hc
    cases hres : tAssocH h t i x with
    | ok p => exact ⟨p.1, p.2, rfl⟩
    | error e =>
      exfalso
      have hg : ¬(i < 0 ∨ (t.count : Int) ≤ i) := by omega
      by_cases htt : indexInTail i.toNat t.count t.tail = true
      · simp only [tAssocH, if_neg hinv', if_neg hg, if_pos htt] at hres
        exact Except.noConfusion hres
      · have hlt : i.toNat < trieSize t.toVec := by
          show i.toNat < t.count - t.tail.length
          simp only [indexInTail, decide_eq_true_eq] at htt
          omega
        obtain ⟨vs, hwalk, hvseq, hvlen⟩ := rep.reads_walk hlt
        cases hr : t.root with
        | none =>
          rw [show t.toVec.root = t.root from rfl, hr, walkTrie_none] at hwalk
          cases hwalk
        | some ra =>
          rw [show t.toVec.root = t.root from rfl, hr] at hwalk
          have hwfr : nodeWF h t.depth (some ra) = true := by
            rw [← hr]
            exact rep.wf
          have hndra : (addrList h t.depth (some ra)).Nodup := by
            rw [← hr]
            exact rep.nodup
          have hwne : walkTrie h (some ra) t.depth i.toNat ≠ none := by
            rw [show t.toVec.depth = t.depth from rfl] at hwalk
            rw [hwalk]
            simp
          have hra : ra < h.length := wfAddr_lt hwfr
          obtain ⟨rnd, hgr⟩ := hget_of_lt hra
          by_cases hid : rnd.id = t.id
          · obtain ⟨h2, hfix⟩ := tAssocFix_ok x t.id t.depth h ra i.toNat hwfr hndra hwne
            simp only [tAssocH, if_neg hinv', if_neg hg, if_neg htt, hr, hgr, if_pos hid,
              hfix] at hres
            exact Except.noConfusion hres
          · have hgclone : hget (h ++ [GNode.mk t.id rnd.nodes rnd.values]) h.length =
                some (GNode.mk t.id rnd.nodes rnd.values) := hget_append_self h _
            have hgra' : hget (h ++ [GNode.mk t.id rnd.nodes rnd.values]) ra = some rnd := by
              rw [hget_append hra]
              exact hgr
            have hagree : ∀ b ∈ addrList h t.depth (some ra),
                hget (h ++ [GNode.mk t.id rnd.nodes rnd.values]) b = hget h b :=
              fun b hb => hget_append (addrList_lt hwfr b hb)
            obtain ⟨hwfD, hndD, hwalkD⟩ :=
              redirect_entry t.depth hgra' hgclone rfl rfl hwfr hndra (le_refl _) hagree
            obtain ⟨h2, hfix⟩ := tAssocFix_ok x t.id t.depth
              (h ++ [GNode.mk t.id rnd.nodes rnd.values]) h.length i.toNat hwfD hndD
              (by rw [hwalkD]; exact hwne)
            simp only [tAssocH, if_neg hinv', if_neg hg, if_neg htt, hr, hgr, if_neg hid,
              halloc, hfix] at hres
            exact Except.noConfusion hres
  · cases hres : persistentH h t with
    | ok p => exact ⟨p.1, p.2, rfl⟩
    | error e =>
      exfalso
      simp only [persistentH, if_neg hinv'] at hres
      exact Except.noConfusion hres

/-- C10 witness: the transient over `New(5, 7)` — every read succeeds and
`Conj`, `Assoc` and `Persistent` all still succeed on the same value. -/
theorem c10_witness :
    tLenH (transientH (runNew [5, 7]).1 (runNew [5, 7]).2 9).2 =
      .ok (transientH (runNew [5, 7]).1 (runNew [5, 7]).2 9).2.count ∧
    (∃ y, tNthH (runNew [5, 7]).1 (transientH (runNew [5, 7]).1 (runNew [5, 7]).2 9).2 1 = .ok y) ∧
    (∃ y, tPeekH (runNew [5, 7]).1 (transientH (runNew [5, 7]).1 (runNew [5, 7]).2 9).2 = .ok y) ∧
    (∃ h' t', tConjH (runNew [5, 7]).1 (transientH (runNew [5, 7]).1 (runNew [5, 7]).2 9).2 42 = .ok (h', t')) ∧
    (∃ h' t', tAssocH (runNew [5, 7]).1 (transientH (runNew [5, 7]).1 (runNew [5, 7]).2 9).2 1 42 = .ok (h', t')) ∧
    (∃ h' v', persistentH (runNew [5, 7]).1 (transientH (runNew [5, 7]).1 (runNew [5, 7]).2 9).2 = .ok (h', v')) := by
  obtain ⟨h1, h2, h3, h4, h5, h6⟩ := c10_transient_reads_frame
    (h := (runNew [5, 7]).1) (t := (transientH (runNew [5, 7]).1 (runNew [5, 7]).2 9).2)
    (l := [5, 7]) rfl
    ⟨by decide, by decide, by decide, by decide, by decide, by decide, by decide, by decide, by decide, by decide⟩
  exact ⟨h1, h2 1 (by decide) (by decide), h3 (by decide), h4 42,
    h5 1 42 (by decide) (by decide), h6⟩

end PVec
